import Mathlib

/-!
Verification development for the LeMMing scheduler/outbox core
(`src/lemming/engine.py`, `src/lemming/messages.py`, `src/lemming/agents.py`).

Embedding conventions:
* Python strings are modelled as `List Nat` of character code points; Python
  string comparison is the lexicographic order `lexLt` on those lists.
* Python `sorted(..., key=k, reverse=True)` (a stable sort) is modelled by the
  stable insertion sort `sSort` with the comparator "may precede".
* `heapq.merge(*its, reverse=True)` on descending streams is modelled by
  `hMerge` (ties resolved in favour of the earlier iterable, as the heap's
  tie-breaking index does).
* Python ints are `Int`; Python `%` (sign of the divisor) is `Int.fmod`.
  Outbox entry ticks are modelled as `Nat`: the scheduler clock starts at 1
  and every claim under study concerns non-negative ticks.
* Python floats appearing as credit balances and fire points are modelled as
  exact rationals `ℚ`.
-/

namespace LeMMing

/-! ### Lexicographic order on code-point lists (Python string `<`) -/

def lexLt : List Nat → List Nat → Bool
  | [], [] => false
  | [], _ :: _ => true
  | _ :: _, [] => false
  | a :: as, b :: bs => if a < b then true else if b < a then false else lexLt as bs

/-! ### Stable sorting (Python `list.sort` / `sorted`) -/

/-- Stable insertion: `x` (a later element of the original list) is inserted
after every element it "may follow", i.e. before the first `y` with `r x y`. -/
def sIns (r : α → α → Bool) (x : α) : List α → List α
  | [] => [x]
  | y :: ys => if r x y then x :: y :: ys else y :: sIns r x ys

/-- Stable insertion sort with the "may strictly precede" comparator `r`:
`r x y = true` means `x` must come before `y`. Used with
`r x y := !(lt y x)` this is Python's stable ascending sort by strict key
order `lt`, and with `r x y := !(lt x y)` the stable descending sort. -/
def sSort (r : α → α → Bool) : List α → List α
  | [] => []
  | x :: xs => sIns r x (sSort r xs)

/-! ### k-way descending merge (`heapq.merge(*iterables, reverse=True)`) -/

/-- Fuel-indexed binary descending merge. `lt` is the strict key order; on a
tie the element of the FIRST stream is emitted first, matching the heap's
iterable-index tie-break. The fuel makes the definition structurally
recursive so that concrete runs reduce in the kernel. -/
def hMergeF (lt : α → α → Bool) : Nat → List α → List α → List α
  | 0, l₁, l₂ => l₁ ++ l₂
  | _ + 1, [], l₂ => l₂
  | _ + 1, a :: l₁, [] => a :: l₁
  | fuel + 1, a :: l₁, b :: l₂ =>
    if lt a b then b :: hMergeF lt fuel (a :: l₁) l₂
    else a :: hMergeF lt fuel l₁ (b :: l₂)

def hMerge (lt : α → α → Bool) (l₁ l₂ : List α) : List α :=
  hMergeF lt (l₁.length + l₂.length) l₁ l₂

/-! ### Decimal rendering and the `"{tick:08d}_{entry_id}.json"` filename
encoding (`messages.py`, `OUTBOX_FILENAME_TEMPLATE` / `outbox_filename`). -/

/-- Most-significant-first decimal digits of `t` (no leading zeros; `[0]` for
zero), fuel-indexed so that the definition is structurally recursive and
kernel-reducible. `digitsAux t fuel` is the genuine digit list whenever
`t < 10 ^ fuel` and `0 < fuel`. -/
def digitsAux : Nat → Nat → List Nat
  | _, 0 => []
  | t, fuel + 1 => if t < 10 then [t] else digitsAux (t / 10) fuel ++ [t % 10]

/-- Decimal digits of a tick value. 64 digits of fuel covers every tick value
below `10 ^ 64`; all ticks under study are below `10 ^ 9`. -/
def natDigits (t : Nat) : List Nat := digitsAux t 64

/-- Numeric value of a most-significant-first digit list. -/
def digitsVal : List Nat → Nat
  | [] => 0
  | d :: ds => d * 10 ^ ds.length + digitsVal ds

/-- Python `"%08d"`-style zero-padding: the digit list left-padded with zeros to
width 8 (digits beyond 8 are kept, exactly as Python's format does). -/
def pad8 (t : Nat) : List Nat := List.replicate (8 - (natDigits t).length) 0 ++ natDigits t

/-- Digit value `d` rendered as the code point of its ASCII character. -/
def digitChar (d : Nat) : Nat := 48 + d

/-- The rendered zero-padded tick (as character code points). -/
def pad8c (t : Nat) : List Nat := (pad8 t).map digitChar

/-! ### JSON values and the outbox entry model (`messages.py`) -/

/-- Parsed JSON values (`json.loads` results). JSON numbers are modelled as
integers; none of the claims under study exercises fractional numbers. -/
inductive JVal where
  | null : JVal
  | boolean : Bool → JVal
  | num : Int → JVal
  | str : List Nat → JVal
  | arr : List JVal → JVal
  | obj : List (List Nat × JVal) → JVal

/-- Models `messages.OutboxEntry`. Strings are code-point lists; `payload` and
`meta` are JSON objects (association lists); ticks are modelled as
non-negative integers (the scheduler's clock starts at 1, and every claim
under study concerns non-negative ticks). The dataclass annotates `tags`
and `recipients` as string lists but never enforces it, so they are kept
as raw JSON values here. -/
structure OutboxEntry where
  id : List Nat
  tick : Nat
  agent : List Nat
  kind : List Nat
  payload : List (List Nat × JVal)
  tags : List JVal
  created_at : List Nat
  recipients : Option (List JVal) := none
  meta : List (List Nat × JVal) := []

/-- The code points of the fixed `".json"` suffix. -/
def dotJson : List Nat := [46, 106, 115, 111, 110]

/-- Models `OUTBOX_FILENAME_TEMPLATE = "{tick:08d}_{entry_id}.json"`:
zero-padded tick, `'_'` (95), the entry id, `".json"`. -/
def outbox_filename (e : OutboxEntry) : List Nat :=
  pad8c e.tick ++ [95] ++ e.id ++ dotJson

/-! ### Python tuple comparison on `(tick, string)` keys -/

/-- Strict order of Python tuples `(int, str)`. -/
def kLt (x y : Nat × List Nat) : Bool :=
  decide (x.1 < y.1) || (decide (x.1 = y.1) && lexLt x.2 y.2)

/-! ### Comparators used by the outbox store's sorts and merges -/

/-- Filename string order (the `sorted(..., reverse=True)` directory listing
and `heapq.nlargest` over filenames). -/
def ltName (e f : OutboxEntry) : Bool := lexLt (outbox_filename e) (outbox_filename f)

/-- Models `(tick, created_at)` tuple order (the final sort of every read). -/
def ltTC (e f : OutboxEntry) : Bool :=
  kLt (e.tick, e.created_at) (f.tick, f.created_at)

/-- Models `(tick, filename)` tuple order (the k-way `heapq.merge` over scan
tuples; the path component is never reached because filenames already
distinguish the tuples wherever this model is used). -/
def ltTN (e f : OutboxEntry) : Bool :=
  kLt (e.tick, outbox_filename e) (f.tick, outbox_filename f)

/-- Python's stable descending sort by the strict key order `lt`
(`sorted(..., reverse=True)` / `list.sort(reverse=True)`). -/
def sortDescBy (lt : α → α → Bool) : List α → List α :=
  sSort (fun x y => ! lt x y)

/-! ### The outbox read path (`messages.py`) -/

/-- Models `tick_val < since_tick` with `since_tick = None` handled as in Python
(`since_tick is not None and ...`). -/
def belowSince (since : Option Nat) (t : Nat) : Bool :=
  match since with
  | some s => decide (t < s)
  | none => false

/-- The filter/cap loop of `_scan_outbox_files_optimized` over the cached
descending filename list: stop when a tick falls below `since_tick`, stop
once `limit > 0` entries have been taken. (The `.json`/leading-digit name
filters and the tick parse are identities on genuine entries, whose names
are produced by `outbox_filename` with a non-negative tick.) -/
def scanLoop (since : Option Nat) (limit : Nat) : List OutboxEntry → Nat → List OutboxEntry
  | [], _ => []
  | e :: rest, count =>
    if belowSince since e.tick then []
    else e :: (if 0 < limit ∧ limit ≤ count + 1 then [] else scanLoop since limit rest (count + 1))

/-- Models `scan_outbox_files` / `_scan_outbox_files_optimized`: descending
filename metadata of one agent's outbox, capped at `limit` when positive. -/
def scan_outbox_files (L : List OutboxEntry) (since : Option Nat) (limit : Nat) :
    List OutboxEntry :=
  scanLoop since limit (sortDescBy ltName L) 0

/-- Models `min_collected_tick > tick_val` with the initial `float("inf")`
modelled by `none`. -/
def minGt (minT : Option Nat) (t : Nat) : Bool :=
  match minT with
  | some m => decide (t < m)
  | none => true

/-- Models `min(min_collected_tick, tick)` update. -/
def updateMin (minT : Option Nat) (t : Nat) : Nat :=
  match minT with
  | some m => min m t
  | none => t

/-- The load loop of `read_outbox_entries`: early-terminate below
`since_tick`, early-terminate once `limit` entries are collected and every
remaining filename tick is below the smallest collected tick; otherwise
load (loads always succeed on genuine entries), re-check `since_tick`
against the entry, append, and track the minimum collected tick. -/
def readLoop (limit : Nat) (since : Option Nat) :
    List OutboxEntry → List OutboxEntry → Option Nat → List OutboxEntry
  | [], acc, _ => acc
  | e :: rest, acc, minT =>
    if belowSince since e.tick then acc
    else if decide (limit ≤ acc.length) && minGt minT e.tick then acc
    else if belowSince since e.tick then readLoop limit since rest acc minT
    else readLoop limit since rest (acc ++ [e]) (some (updateMin minT e.tick))

/-- Models `read_outbox_entries(agent, limit, since_tick)`: take the `limit`
lexicographically largest filenames (with the `since_tick` name
pre-filter), run the load loop, then sort by `(tick, created_at)`
descending and truncate. `limit <= 0` returns `[]`. -/
def read_outbox_entries (L : List OutboxEntry) (limit : Nat) (since : Option Nat) :
    List OutboxEntry :=
  if limit = 0 then []
  else
    let cand := match since with
      | none => L
      | some s => L.filter (fun e => decide (s ≤ e.tick))
    let files := (sortDescBy ltName cand).take limit
    let entries := readLoop limit since files [] none
    (sortDescBy ltTC entries).take limit

/-- Models `read_multi_agent_outbox_entries(agents, limit, since_tick)`: per-agent
scans, k-way descending `heapq.merge` by `(tick, filename)`, the first
`limit` candidates loaded, then the final `(tick, created_at)` sort. -/
def read_multi_agent_outbox_entries (ls : List (List OutboxEntry)) (limit : Nat)
    (since : Option Nat) : List OutboxEntry :=
  if limit = 0 then []
  else
    let iterables := ls.map (fun L => scan_outbox_files L since limit)
    let merged := iterables.foldr (hMerge ltTN) []
    sortDescBy ltTC (merged.take limit)

/-- The reference computation of C4's merge-correctness property, following
the spec's words: read each agent with the same limit, concatenate, sort by
`(tick, created_at)` descending, truncate to the limit. -/
def referenceMergedRead (La Lb : List OutboxEntry) (limit : Nat) : List OutboxEntry :=
  (sortDescBy ltTC
    (read_outbox_entries La limit none ++ read_outbox_entries Lb limit none)).take limit

/-- Strict "newer tick" order; the common skeleton of every comparator on
a tick-distinct entry set. -/
def tickGT (e f : OutboxEntry) : Prop := f.tick < e.tick

/-- Entry of agent `a`: same tick as `ceB` but newer `created_at` and the
smaller id. -/
def ceA : OutboxEntry :=
  { id := [97, 97], tick := 5, agent := [97], kind := [109],
    payload := [], tags := [], created_at := [84, 49, 48] }

/-- Entry of agent `b`: same tick as `ceA` but older `created_at` and the
larger id. -/
def ceB : OutboxEntry :=
  { id := [98, 98], tick := 5, agent := [98], kind := [109],
    payload := [], tags := [], created_at := [84, 48, 57] }

/-- Entry with a tick distinct from `ceA`'s, used for the C4 witness. -/
def ceC : OutboxEntry :=
  { id := [99, 99], tick := 7, agent := [98], kind := [109],
    payload := [], tags := [], created_at := [84, 48, 48] }

/-! ### Parsing generator output (`engine._parse_llm_output`) -/

/-- Code points of the JSON field names and fixed strings in play. -/
def sOutboxEntries : List Nat := [111, 117, 116, 98, 111, 120, 95, 101, 110, 116, 114, 105, 101, 115]

def sToolCalls : List Nat := [116, 111, 111, 108, 95, 99, 97, 108, 108, 115]

def sMemoryUpdates : List Nat := [109, 101, 109, 111, 114, 121, 95, 117, 112, 100, 97, 116, 101, 115]

def sNotes : List Nat := [110, 111, 116, 101, 115]

def sKind : List Nat := [107, 105, 110, 100]

def sPayload : List Nat := [112, 97, 121, 108, 111, 97, 100]

def sTags : List Nat := [116, 97, 103, 115]

def sMeta : List Nat := [109, 101, 116, 97]

def sTo : List Nat := [116, 111]

def sKey : List Nat := [107, 101, 121]

def sValue : List Nat := [118, 97, 108, 117, 101]

def sOp : List Nat := [111, 112]

def sMessage : List Nat := [109, 101, 115, 115, 97, 103, 101]

def sId : List Nat := [105, 100]

def sTick : List Nat := [116, 105, 99, 107]

def sAgent : List Nat := [97, 103, 101, 110, 116]

def sCreatedAt : List Nat := [99, 114, 101, 97, 116, 101, 100, 95, 97, 116]

def sRecipients : List Nat := [114, 101, 99, 105, 112, 105, 101, 110, 116, 115]

def sTimestamp : List Nat := [116, 105, 109, 101, 115, 116, 97, 109, 112]

def sAgentTemplate : List Nat := [97, 103, 101, 110, 116, 95, 116, 101, 109, 112, 108, 97, 116, 101]

def sStar : List Nat := [42]

/-- First-match association-list lookup (Python dict access; dict keys are
unique, so first-match agrees with the dict). -/
def jlookup (d : List (List Nat × JVal)) (k : List Nat) : Option JVal :=
  match d with
  | [] => none
  | (k', v) :: rest => if k' = k then some v else jlookup rest k

/-- Models `dict.get(k)`: a JSON `null` value and a missing key both surface as
Python `None`. -/
def pyGet (d : List (List Nat × JVal)) (k : List Nat) : Option JVal :=
  match jlookup d k with
  | some JVal.null => none
  | r => r

/-- A rough rendering of Python `str()` over parsed JSON values, used only
for the `notes` coercion. No claim depends on the exact text, only on
the result being a string. -/
def pyStr : JVal → List Nat
  | JVal.null => [78, 111, 110, 101]
  | JVal.boolean true => [84, 114, 117, 101]
  | JVal.boolean false => [70, 97, 108, 115, 101]
  | JVal.num n => (pad8 n.natAbs).map digitChar
  | JVal.str s => s
  | JVal.arr _ => [91, 93]
  | JVal.obj _ => [123, 125]

/-- Models `_ensure_list`: `None` and a missing field default to `[]`, a non-list
is replaced by `[]` with a warning, a list passes through. -/
def ensure_list : Option JVal → List JVal
  | none => []
  | some JVal.null => []
  | some (JVal.arr l) => l
  | some _ => []

/-- The per-entry result rows appended by `_sanitize_outbox`. -/
structure ParsedEntry where
  kind : JVal
  payload : List (List Nat × JVal)
  tags : List JVal
  meta : List (List Nat × JVal)
  recipients : Option (List (List Nat))

/-- Attempt to read a list of JSON strings
(`isinstance(to_field, list) and all(isinstance(item, str) ...)`). -/
def asStrList : List JVal → Option (List (List Nat))
  | [] => some []
  | JVal.str s :: rest =>
    match asStrList rest with
    | some l => some (s :: l)
    | none => none
  | _ => none

/-- The `recipients` resolution of `_sanitize_outbox`: `to` falls back to
`meta["to"]`; a string becomes a one-element list, a list of strings passes,
anything else (warned) and `None` leave `recipients = None`. -/
def resolveRecipients (entry meta : List (List Nat × JVal)) : Option (List (List Nat)) :=
  let toField : Option JVal :=
    match jlookup entry sTo with
    | some v => some v
    | none => jlookup meta sTo
  match toField with
  | some JVal.null => none
  | none => none
  | some (JVal.str s) => some [s]
  | some (JVal.arr items) => asStrList items
  | some _ => none

/-- Models `_sanitize_outbox`: drop non-object rows; default `kind` to
`"message"` when absent; wrong-typed `payload`/`tags`/`meta` default to
empty; resolve `recipients`. -/
def sanitize_outbox : List JVal → List ParsedEntry
  | [] => []
  | JVal.obj fields :: rest =>
    let payload := match jlookup fields sPayload with
      | some (JVal.obj p) => p
      | _ => []
    let tags := match jlookup fields sTags with
      | some (JVal.arr t) => t
      | _ => []
    let meta := match jlookup fields sMeta with
      | some (JVal.obj m) => m
      | _ => []
    { kind := match jlookup fields sKind with
        | some v => v
        | none => JVal.str sMessage
      payload := payload
      tags := tags
      meta := meta
      recipients := resolveRecipients fields meta } :: sanitize_outbox rest
  | _ :: rest => sanitize_outbox rest

/-- The rows appended by `_sanitize_memory`. -/
structure MemUpd where
  key : Option JVal
  value : Option JVal
  op : Option JVal

/-- Models `_sanitize_memory`: drop non-object rows and rows without a `key`
field; keep `key`/`value`/`op` as given. -/
def sanitize_memory : List JVal → List MemUpd
  | [] => []
  | JVal.obj fields :: rest =>
    if (jlookup fields sKey).isSome then
      { key := pyGet fields sKey, value := pyGet fields sValue, op := pyGet fields sOp }
        :: sanitize_memory rest
    else sanitize_memory rest
  | _ :: rest => sanitize_memory rest

/-- The four-field result of `_parse_llm_output`. -/
structure TurnResult where
  outbox_entries : List ParsedEntry
  tool_calls : List JVal
  memory_updates : List MemUpd
  notes : List Nat

/-- The all-empty default `TurnResult`. -/
def defaultTurnResult : TurnResult :=
  { outbox_entries := [], tool_calls := [], memory_updates := [], notes := [] }

/-- Models `_parse_llm_output` on the result of `json.loads` (`none` models a
`JSONDecodeError`; fence stripping happens on the raw text before parsing
and does not affect the structure seen here). -/
def parse_llm_output : Option JVal → TurnResult
  | none => defaultTurnResult
  | some (JVal.obj data) =>
    { outbox_entries := sanitize_outbox (ensure_list (some ((jlookup data sOutboxEntries).getD (JVal.arr []))))
      tool_calls := ensure_list (some ((jlookup data sToolCalls).getD (JVal.arr [])))
      memory_updates := sanitize_memory (ensure_list (some ((jlookup data sMemoryUpdates).getD (JVal.arr []))))
      notes := match jlookup data sNotes with
        | none => []
        | some (JVal.str s) => s
        | some v => pyStr v }
  | some _ => defaultTurnResult

/-! ### Applying outbox entries under `sendableOutboxes`
(`engine.run_agent`, lines 357-401) -/

/-- The allow-list enforcement of `run_agent`: `None` or `[]` permissions
mean unrestricted (`allowed_targets = None`); otherwise an entry survives
only if the list is the wildcard `["*"]`, or all its declared recipients
are in the list (entries with no recipients are dropped). Returns the
entries that get written to the outbox store, in order. -/
def apply_outbox_entries (send_permissions : Option (List (List Nat)))
    (entries : List ParsedEntry) : List ParsedEntry :=
  let allowed_targets : Option (List (List Nat)) :=
    match send_permissions with
    | none => none
    | some l => if l = [] then none else some l
  entries.filter (fun e =>
    match allowed_targets with
    | none => true
    | some ts =>
      if ts = [sStar] then true
      else match e.recipients with
        | none => false
        | some rs => rs.all (fun r => decide (r ∈ ts)))

def sFriend : List Nat := [102, 114, 105, 101, 110, 100]

def sStranger : List Nat := [115, 116, 114, 97, 110, 103, 101, 114]

/-- A parsed entry addressed to `"friend"`. -/
def peFriend : ParsedEntry :=
  { kind := JVal.str sMessage, payload := [], tags := [], meta := [],
    recipients := some [sFriend] }

/-- A parsed entry addressed to `"stranger"`. -/
def peStranger : ParsedEntry :=
  { kind := JVal.str sMessage, payload := [], tags := [], meta := [],
    recipients := some [sStranger] }

/-! ### Entry serialization (`OutboxEntry.to_dict` / `from_dict`) -/

/-- Models `to_dict`: the nine fields in declaration order. The shallow copies the
Python code makes are identities in this pure model. -/
def to_dict (e : OutboxEntry) : List (List Nat × JVal) :=
  [(sId, JVal.str e.id),
   (sTick, JVal.num (e.tick : Int)),
   (sAgent, JVal.str e.agent),
   (sKind, JVal.str e.kind),
   (sPayload, JVal.obj e.payload),
   (sTags, JVal.arr e.tags),
   (sCreatedAt, JVal.str e.created_at),
   (sRecipients, match e.recipients with
     | none => JVal.null
     | some rs => JVal.arr rs),
   (sMeta, JVal.obj e.meta)]

def hasKey (d : List (List Nat × JVal)) (k : List Nat) : Bool :=
  (jlookup d k).isSome

/-- Models `dict.pop`: the association list without the given key. -/
def removeKey (d : List (List Nat × JVal)) (k : List Nat) : List (List Nat × JVal) :=
  d.filter (fun p => decide (p.1 ≠ k))

def fieldNames : List (List Nat) :=
  [sId, sTick, sAgent, sKind, sPayload, sTags, sCreatedAt, sRecipients, sMeta]

def asStr : JVal → Option (List Nat)
  | JVal.str s => some s
  | _ => none

/-- Tick decode; the model's ticks are the non-negative integers, see the
`OutboxEntry` note. -/
def asNatNum : JVal → Option Nat
  | JVal.num n => some n.toNat
  | _ => none

def asObj : JVal → Option (List (List Nat × JVal))
  | JVal.obj o => some o
  | _ => none

/-- Tags pass through untyped, as in the Python dataclass. -/
def asTags : JVal → Option (List JVal)
  | JVal.arr items => some items
  | _ => none

/-- A JSON `null` means no recipients, an array passes through untyped. -/
def asRecipients : JVal → Option (Option (List JVal))
  | JVal.null => some none
  | JVal.arr items => some (some items)
  | _ => none

/-- Models `from_dict`: rename a legacy `timestamp` to `created_at` when the
latter is absent, default an absent `recipients` to `None`, then construct
the dataclass with `cls(**data)` — which fails on any unknown key and on
any missing required field. (Python performs no value type-checking; the
model decodes the typed values, which covers every record `to_dict`
produces and the legacy shapes in the claims.) -/
def from_dict (d : List (List Nat × JVal)) : Option OutboxEntry :=
  let d₁ := if !hasKey d sCreatedAt && hasKey d sTimestamp then
      removeKey d sTimestamp ++ [(sCreatedAt, (jlookup d sTimestamp).getD JVal.null)]
    else d
  let d₂ := if !hasKey d₁ sRecipients then d₁ ++ [(sRecipients, JVal.null)] else d₁
  if d₂.all (fun p => decide (p.1 ∈ fieldNames)) then
    match jlookup d₂ sId, jlookup d₂ sTick, jlookup d₂ sAgent, jlookup d₂ sKind,
        jlookup d₂ sPayload, jlookup d₂ sTags, jlookup d₂ sCreatedAt with
    | some vid, some vtick, some vagent, some vkind, some vpayload, some vtags, some vcreated =>
      match asStr vid, asNatNum vtick, asStr vagent, asStr vkind, asObj vpayload,
          asTags vtags, asStr vcreated with
      | some i, some t, some ag, some k, some p, some tg, some c =>
        let recips : Option (Option (List JVal)) :=
          match jlookup d₂ sRecipients with
          | none => some none
          | some v => asRecipients v
        let met : Option (List (List Nat × JVal)) :=
          match jlookup d₂ sMeta with
          | none => some []
          | some v => asObj v
        match recips, met with
        | some r, some m =>
          some { id := i, tick := t, agent := ag, kind := k, payload := p, tags := tg,
                 created_at := c, recipients := r, meta := m }
        | _, _ => none
      | _, _, _, _, _, _, _ => none
    | _, _, _, _, _, _, _ => none
  else none

/-! ### The per-turn side-effect trace of `engine.run_agent` -/

/-- Observable side effects of one agent turn. `credits_deducted = none`
means the ledger was never touched. -/
structure TurnTrace where
  skipped : Bool
  llm_called : Bool
  outbox_written : List ParsedEntry
  tool_calls : List JVal
  memory_updates : List MemUpd
  credits_deducted : Option ℚ

/-- Models `run_agent` as a trace: a balance `≤ 0` returns the skipped result
before the prompt is built — no generator call, no outbox writes, no tool
or memory activity, no deduction. Otherwise the generator output is parsed
and applied (`llm_output` is the parsed JSON of the returned string; a
generator exception aborts the turn and is outside this trace). Credit
balances are Python floats, modelled as exact rationals. -/
def run_agent_trace (credits_left cost_per_action : ℚ)
    (send_permissions : Option (List (List Nat))) (llm_output : Option JVal) : TurnTrace :=
  if credits_left ≤ 0 then
    { skipped := true, llm_called := false, outbox_written := [], tool_calls := [],
      memory_updates := [], credits_deducted := none }
  else
    let parsed := parse_llm_output llm_output
    { skipped := false, llm_called := true,
      outbox_written := apply_outbox_entries send_permissions parsed.outbox_entries,
      tool_calls := parsed.tool_calls,
      memory_updates := parsed.memory_updates,
      credits_deducted := some cost_per_action }

/-! ### The scheduler (`engine.py`): firing predicate, fire points,
firing order, tick driver -/

/-- Models `resume.json` schedule block (`agents.AgentSchedule`). -/
structure AgentSchedule where
  run_every_n_ticks : Int := 1
  phase_offset : Int := 0

/-- The slice of `agents.Agent` the scheduler reads. -/
structure AgentR where
  name : List Nat
  schedule : AgentSchedule

/-- Models `engine.should_run`. Python `x or 1` maps only a zero (or missing)
`run_every_n_ticks` to 1 — a negative value passes through; `offset or 0`
is the identity on ints. Python `%` is `Int.fmod` (sign of the divisor). -/
def should_run (a : AgentR) (tick : Int) : Bool :=
  let n : Int := if a.schedule.run_every_n_ticks = 0 then 1 else a.schedule.run_every_n_ticks
  let offset : Int := a.schedule.phase_offset
  decide (Int.fmod (tick + Int.fmod offset n) n = 0)

/-- The firing predicate as the spec and `test_engine_scheduler.py` state
it: fire iff `tick mod N == phaseOffset mod N` with `N = max(n, 1)`.
Modelled from the spec: the spec's firing predicate, kept separate to
compare with the code's `should_run`. -/
def should_run_spec (a : AgentR) (tick : Int) : Bool :=
  let N : Int := max a.schedule.run_every_n_ticks 1
  decide (Int.fmod tick N = Int.fmod a.schedule.phase_offset N)

/-- Fuel-bounded search for the least `k` with `n ≤ a * 2 ^ k` (the binade
exponent of `a / n` in `(0, 1)`; fuel 1100 covers every value above the
binary64 subnormal threshold `2 ^ (-1022)`). -/
def log2UpN : Nat → Nat → Nat → Nat
  | 0, _, _ => 0
  | fuel + 1, a, n => if n ≤ a then 0 else log2UpN fuel (2 * a) n + 1

/-- Round `x / n` to the nearest integer, halves to even (the IEEE-754
default rounding). -/
def rheDiv (x n : Nat) : Nat :=
  let d := x / n
  let r := x % n
  if n < 2 * r then d + 1
  else if 2 * r < n then d
  else if d % 2 = 0 then d else d + 1

/-- Binary64 (round-to-nearest-even) value of the integer quotient
`a / n` with `0 ≤ a < n`, represented as a dyadic pair `(m, s)` of value
`m / 2 ^ s`: normal values keep a 53-bit significand in their binade,
values below `2 ^ (-1022)` round to a multiple of `2 ^ (-1074)` (gradual
underflow). Comparing two floats is comparing the represented values. -/
def fl64Pair (a n : Nat) : Nat × Nat :=
  if a = 0 then (0, 0)
  else
    let k := log2UpN 1100 a n
    let s := if k ≤ 1022 then 52 + k else 1074
    (rheDiv (a * 2 ^ s) n, s)

/-- The rational value represented by a dyadic pair. -/
def fpVal (p : Nat × Nat) : ℚ := (p.1 : ℚ) / (2 : ℚ) ^ p.2

/-- Value order of two dyadic pairs (float `<`), by cross-multiplication. -/
def fltLt (p q : Nat × Nat) : Bool := decide (p.1 * 2 ^ q.2 < q.1 * 2 ^ p.2)

/-- Value equality of two dyadic pairs (float `==`). -/
def fltEq (p q : Nat × Nat) : Bool := decide (p.1 * 2 ^ q.2 = q.1 * 2 ^ p.2)

/-- Models `engine.compute_fire_point`. Python evaluates
`((-offset) % n) / n` with int true division, whose result CPython defines
as the correctly rounded (round-half-even) binary64 value of the exact
quotient; `fl64Pair` computes that binary64 value as a dyadic pair. The
`n == 1` branch returns `0.0` directly, with no division. (A negative `n`
is unreachable: the loader rejects `run_every_n_ticks <= 0`.) -/
def compute_fire_point (a : AgentR) : Nat × Nat :=
  let n : Int := if a.schedule.run_every_n_ticks = 0 then 1 else a.schedule.run_every_n_ticks
  if n = 1 then (0, 0)
  else
    let offset := Int.fmod a.schedule.phase_offset n
    fl64Pair (Int.fmod (-offset) n).toNat n.toNat

/-- The binary64 rounding of the spec's fire point
`((-phaseOffset) mod N) / N` with `N = max(n, 1)`, as a dyadic pair.
Modelled from the spec for comparison with the code. -/
def fire_point_bits (a : AgentR) : Nat × Nat :=
  let N : Int := max a.schedule.run_every_n_ticks 1
  fl64Pair (Int.fmod (-a.schedule.phase_offset) N).toNat N.toNat

/-- The fire point as the spec words it: `((-phaseOffset) mod N) / N` with
`N = max(n, 1)`. Modelled from the spec for comparison with the code. -/
def fire_point_spec (a : AgentR) : ℚ :=
  let N : Int := max a.schedule.run_every_n_ticks 1
  ((Int.fmod (-a.schedule.phase_offset) N : Int) : ℚ) / (N : ℚ)

/-- The sort key comparison of `firing.sort(key=lambda a: (fire_point, name))`:
strict order on `(ℚ, str)` pairs. -/
def qkLt (x y : ℚ × List Nat) : Bool :=
  decide (x.1 < y.1) || (decide (x.1 = y.1) && lexLt x.2 y.2)

/-- Strict "fires earlier" order on agents: the tuple comparison of
`(fire_point, name)` keys, where the float component compares by value. -/
def agentLt (x y : AgentR) : Bool :=
  fltLt (compute_fire_point x) (compute_fire_point y) ||
    (fltEq (compute_fire_point x) (compute_fire_point y) && lexLt x.name y.name)

/-- Python's stable ascending sort by the strict key order `lt`. -/
def pySortAscBy (lt : α → α → Bool) : List α → List α :=
  sSort (fun x y => ! lt y x)

/-- Models `engine.get_firing_agents`: filter by `should_run`, then stable-sort by
`(fire_point, name)`. -/
def get_firing_agents (agents : List AgentR) (tick : Int) : List AgentR :=
  pySortAscBy agentLt (agents.filter (fun a => should_run a tick))

/-! ### The tick driver (`engine.run_tick`) -/

/-- Observable shape of one `run_tick` call: which agents ran (in order)
and whether outbox retention cleanup was invoked. -/
structure TickTrace where
  fired : List (List Nat)
  cleanup_ran : Bool

/-- Models `run_tick` as a trace: the firing agents run in deterministic order,
then `cleanup_old_outbox_entries` is invoked — unconditionally, with no
cadence check (engine.py lines 506-508). -/
def run_tick_trace (agents : List AgentR) (tick : Int) : TickTrace :=
  { fired := (get_firing_agents agents tick).map (fun a => a.name),
    cleanup_ran := true }

/-- The cleanup cadence the spec and `test_cleanup_throttling.py` demand:
cleanup only when `tick mod interval == 0`. Modelled from the spec for
comparison with the code. -/
def cleanup_cadence_spec (tick interval : Int) : Bool :=
  decide (Int.fmod tick interval = 0)

def zuluName : List Nat := [122, 117, 108, 117]

def alphaName : List Nat := [97, 108, 112, 104, 97]

def bravoName : List Nat := [98, 114, 97, 118, 111]

def agZulu : AgentR := { name := zuluName, schedule := { run_every_n_ticks := 1, phase_offset := 0 } }

def agAlpha : AgentR := { name := alphaName, schedule := { run_every_n_ticks := 1, phase_offset := 0 } }

def agBravo : AgentR := { name := bravoName, schedule := { run_every_n_ticks := 1, phase_offset := 0 } }

/-- Agent `"a"` with schedule `(N = 3, offset = 2)`: exact fire point `1/3`. -/
def agCexA : AgentR :=
  { name := [97], schedule := { run_every_n_ticks := 3, phase_offset := 2 } }

/-- Agent `"b"` with schedule `(N = 10^17, offset = 66666666666666669)`:
exact fire point `33333333333333331 / 10^17`, strictly below `1/3` but
rounding to the same binary64 value `0x1.5555555555555p-2`. -/
def agCexB : AgentR :=
  { name := [98],
    schedule := { run_every_n_ticks := 100000000000000000,
                  phase_offset := 66666666666666669 } }

/-! ### `messages.collect_readable_outboxes` -/

/-- Directory lookup: the outbox entry list of the named agent, `[]` when
the directory is absent (`FileNotFoundError` → empty scan). -/
def agentEntries (fs : List (List Nat × List OutboxEntry)) (n : List Nat) :
    List OutboxEntry :=
  match fs with
  | [] => []
  | (k, l) :: rest => if k = n then l else agentEntries rest n

/-- Models `collect_readable_outboxes`: the wildcard `["*"]` expands to every
agent directory except the reader and `agent_template`; an explicit list
is filtered of the reader's own name; then the merged multi-agent read. -/
def collect_readable_outboxes (fs : List (List Nat × List OutboxEntry))
    (agent_name : List Nat) (read_outboxes : List (List Nat)) (limit : Nat)
    (since : Option Nat) : List OutboxEntry :=
  let names :=
    if read_outboxes = [sStar] then
      (fs.map Prod.fst).filter
        (fun n => decide (n ≠ agent_name) && decide (n ≠ sAgentTemplate))
    else read_outboxes.filter (fun n => decide (n ≠ agent_name))
  read_multi_agent_outbox_entries (names.map (fun n => agentEntries fs n)) limit since

def rdrName : List Nat := [114]

def othName : List Nat := [111]

/-- An entry in the reader's own outbox. -/
def eRdr : OutboxEntry :=
  { id := [97], tick := 1, agent := rdrName, kind := [109], payload := [],
    tags := [], created_at := [84] }

/-- An entry in another agent's outbox. -/
def eOth : OutboxEntry :=
  { id := [98], tick := 2, agent := othName, kind := [109], payload := [],
    tags := [], created_at := [85] }

def fsEx : List (List Nat × List OutboxEntry) := [(rdrName, [eRdr]), (othName, [eOth])]

theorem lexLt_irrefl : ∀ l : List Nat, lexLt l l = false := by
  intro l
  induction l with
  | nil => rfl
  | cons a as ih => simp [lexLt, ih]

theorem lexLt_asymm : ∀ {l₁ l₂ : List Nat}, lexLt l₁ l₂ = true → lexLt l₂ l₁ = false := by
  intro l₁
  induction l₁ with
  | nil =>
    intro l₂ h
    cases l₂ with
    | nil => simp [lexLt] at h
    | cons b bs => rfl
  | cons a as ih =>
    intro l₂ h
    cases l₂ with
    | nil => simp [lexLt] at h
    | cons b bs =>
      simp only [lexLt] at h ⊢
      rcases Nat.lt_trichotomy a b with hab | hab | hab
      · simp [hab, Nat.lt_asymm hab]
      · subst hab
        simp only [Nat.lt_irrefl, if_false] at h ⊢
        exact ih h
      · simp [hab, Nat.lt_asymm hab] at h

theorem lexLt_trans : ∀ {l₁ l₂ l₃ : List Nat},
    lexLt l₁ l₂ = true → lexLt l₂ l₃ = true → lexLt l₁ l₃ = true := by
  intro l₁
  induction l₁ with
  | nil =>
    intro l₂ l₃ h₁ h₂
    cases l₂ with
    | nil => simp [lexLt] at h₁
    | cons b bs =>
      cases l₃ with
      | nil => simp [lexLt] at h₂
      | cons c cs => rfl
  | cons a as ih =>
    intro l₂ l₃ h₁ h₂
    cases l₂ with
    | nil => simp [lexLt] at h₁
    | cons b bs =>
      cases l₃ with
      | nil => simp [lexLt] at h₂
      | cons c cs =>
        simp only [lexLt] at h₁ h₂ ⊢
        rcases Nat.lt_trichotomy a b with hab | hab | hab
        · rcases Nat.lt_trichotomy b c with hbc | hbc | hbc
          · simp [Nat.lt_trans hab hbc]
          · subst hbc; simp [hab]
          · simp [hbc, Nat.lt_asymm hbc] at h₂
        · subst hab
          simp only [Nat.lt_irrefl, if_false] at h₁
          rcases Nat.lt_trichotomy a c with hac | hac | hac
          · simp [hac]
          · subst hac
            simp only [Nat.lt_irrefl, if_false] at h₂ ⊢
            exact ih h₁ h₂
          · simp [hac, Nat.lt_asymm hac] at h₂
        · simp [hab, Nat.lt_asymm hab] at h₁

theorem lexLt_connex : ∀ {l₁ l₂ : List Nat},
    lexLt l₁ l₂ = false → lexLt l₂ l₁ = false → l₁ = l₂ := by
  intro l₁
  induction l₁ with
  | nil =>
    intro l₂ h₁ _
    cases l₂ with
    | nil => rfl
    | cons b bs => simp [lexLt] at h₁
  | cons a as ih =>
    intro l₂ h₁ h₂
    cases l₂ with
    | nil => simp [lexLt] at h₂
    | cons b bs =>
      simp only [lexLt] at h₁ h₂
      rcases Nat.lt_trichotomy a b with hab | hab | hab
      · simp [hab] at h₁
      · subst hab
        simp only [Nat.lt_irrefl, if_false] at h₁ h₂
        exact congrArg (a :: ·) (ih h₁ h₂)
      · simp [hab, Nat.lt_asymm hab] at h₂

theorem sIns_perm (r : α → α → Bool) (x : α) :
    ∀ l : List α, (sIns r x l).Perm (x :: l) := by
  intro l
  induction l with
  | nil => exact List.Perm.refl _
  | cons y ys ih =>
    by_cases h : r x y = true
    · simp [sIns, h]
    · simp only [sIns, h, if_false, Bool.false_eq_true]
      exact (ih.cons y).trans (List.Perm.swap x y ys)

theorem sSort_perm (r : α → α → Bool) : ∀ l : List α, (sSort r l).Perm l := by
  intro l
  induction l with
  | nil => exact List.Perm.refl _
  | cons x xs ih =>
    exact (sIns_perm r x (sSort r xs)).trans (ih.cons x)

theorem sIns_pairwise (r : α → α → Bool)
    (htotal : ∀ a b, r a b = true ∨ r b a = true)
    (htrans : ∀ a b c, r a b = true → r b c = true → r a c = true)
    (x : α) :
    ∀ {l : List α}, l.Pairwise (fun a b => r a b = true) →
      (sIns r x l).Pairwise (fun a b => r a b = true) := by
  intro l
  induction l with
  | nil => intro _; simp [sIns]
  | cons y ys ih =>
    intro hp
    rcases List.pairwise_cons.mp hp with ⟨hy, hys⟩
    by_cases h : r x y = true
    · simp only [sIns, h, if_true]
      refine List.pairwise_cons.mpr ⟨?_, hp⟩
      intro b hb
      rcases List.mem_cons.mp hb with rfl | hb
      · exact h
      · exact htrans x y b h (hy _ hb)
    · simp only [sIns, h, if_false, Bool.false_eq_true]
      refine List.pairwise_cons.mpr ⟨?_, ih hys⟩
      intro b hb
      have hmem := (sIns_perm r x ys).mem_iff.mp hb
      rcases List.mem_cons.mp hmem with rfl | hbys
      · rcases htotal b y with h' | h'
        · exact absurd h' h
        · exact h'
      · exact hy _ hbys

theorem sSort_pairwise (r : α → α → Bool)
    (htotal : ∀ a b, r a b = true ∨ r b a = true)
    (htrans : ∀ a b c, r a b = true → r b c = true → r a c = true) :
    ∀ l : List α, (sSort r l).Pairwise (fun a b => r a b = true) := by
  intro l
  induction l with
  | nil => simp [sSort]
  | cons x xs ih => exact sIns_pairwise r htotal htrans x ih

theorem sSort_eq_self (r : α → α → Bool) :
    ∀ {l : List α}, l.Pairwise (fun a b => r a b = true) → sSort r l = l := by
  intro l
  induction l with
  | nil => intro _; rfl
  | cons x xs ih =>
    intro hp
    rcases List.pairwise_cons.mp hp with ⟨hx, hxs⟩
    have h1 : sSort r (x :: xs) = sIns r x xs := by
      simp [sSort, ih hxs]
    rw [h1]
    cases xs with
    | nil => rfl
    | cons y ys => simp [sIns, hx y (by simp)]

theorem hMergeF_perm (lt : α → α → Bool) :
    ∀ (fuel : Nat) (l₁ l₂ : List α), (hMergeF lt fuel l₁ l₂).Perm (l₁ ++ l₂) := by
  intro fuel
  induction fuel with
  | zero => intro l₁ l₂; exact List.Perm.refl _
  | succ n ih =>
    intro l₁ l₂
    cases l₁ with
    | nil => simp [hMergeF]
    | cons a as =>
      cases l₂ with
      | nil => simp [hMergeF]
      | cons b bs =>
        by_cases h : lt a b = true
        · simp only [hMergeF, h, if_true]
          have := (ih (a :: as) bs).cons b
          refine this.trans ?_
          exact (@List.perm_middle _ b (a :: as) bs).symm
        · simp only [hMergeF, h, if_false, Bool.false_eq_true]
          exact (ih as (b :: bs)).cons a

theorem hMerge_perm (lt : α → α → Bool) (l₁ l₂ : List α) :
    (hMerge lt l₁ l₂).Perm (l₁ ++ l₂) := hMergeF_perm lt _ l₁ l₂

theorem hMergeF_pairwise (lt : α → α → Bool)
    (hasymm : ∀ a b, lt a b = true → lt b a = false)
    (hnegtrans : ∀ a b c, lt a b = false → lt b c = false → lt a c = false) :
    ∀ (fuel : Nat) (l₁ l₂ : List α),
      l₁.length + l₂.length ≤ fuel →
      l₁.Pairwise (fun a b => lt a b = false) →
      l₂.Pairwise (fun a b => lt a b = false) →
      (hMergeF lt fuel l₁ l₂).Pairwise (fun a b => lt a b = false) := by
  intro fuel
  induction fuel with
  | zero =>
    intro l₁ l₂ hlen h₁ h₂
    have e₁ : l₁ = [] := List.eq_nil_of_length_eq_zero (by omega)
    have e₂ : l₂ = [] := List.eq_nil_of_length_eq_zero (by omega)
    subst e₁; subst e₂; simp [hMergeF]
  | succ n ih =>
    intro l₁ l₂ hlen h₁ h₂
    cases l₁ with
    | nil => simpa [hMergeF] using h₂
    | cons a as =>
      cases l₂ with
      | nil => simpa [hMergeF] using h₁
      | cons b bs =>
        rcases List.pairwise_cons.mp h₁ with ⟨ha, has⟩
        rcases List.pairwise_cons.mp h₂ with ⟨hb, hbs⟩
        simp only [List.length_cons] at hlen
        by_cases h : lt a b = true
        · simp only [hMergeF, h, if_true]
          refine List.pairwise_cons.mpr
            ⟨?_, ih (a :: as) bs (by simp only [List.length_cons]; omega) h₁ hbs⟩
          intro x hx
          have hmem := (hMergeF_perm lt n (a :: as) bs).mem_iff.mp hx
          have hba : lt b a = false := hasymm a b h
          rcases List.mem_append.mp hmem with hx₁ | hx₂
          · rcases List.mem_cons.mp hx₁ with rfl | hx₁
            · exact hba
            · exact hnegtrans b a x hba (ha _ hx₁)
          · exact hb _ hx₂
        · have h' : lt a b = false := by
            cases hab : lt a b
            · rfl
            · exact absurd hab h
          simp only [hMergeF, h, if_false, Bool.false_eq_true]
          refine List.pairwise_cons.mpr
            ⟨?_, ih as (b :: bs) (by simp only [List.length_cons]; omega) has h₂⟩
          intro x hx
          have hmem := (hMergeF_perm lt n as (b :: bs)).mem_iff.mp hx
          rcases List.mem_append.mp hmem with hx₁ | hx₂
          · exact ha _ hx₁
          · rcases List.mem_cons.mp hx₂ with rfl | hx₂
            · exact h'
            · exact hnegtrans a b x h' (hb _ hx₂)

theorem hMerge_pairwise (lt : α → α → Bool)
    (hasymm : ∀ a b, lt a b = true → lt b a = false)
    (hnegtrans : ∀ a b c, lt a b = false → lt b c = false → lt a c = false)
    (l₁ l₂ : List α)
    (h₁ : l₁.Pairwise (fun a b => lt a b = false))
    (h₂ : l₂.Pairwise (fun a b => lt a b = false)) :
    (hMerge lt l₁ l₂).Pairwise (fun a b => lt a b = false) :=
  hMergeF_pairwise lt hasymm hnegtrans _ l₁ l₂ (Nat.le_refl _) h₁ h₂

theorem digitsVal_append_singleton (ds : List Nat) (d : Nat) :
    digitsVal (ds ++ [d]) = digitsVal ds * 10 + d := by
  induction ds with
  | nil => simp [digitsVal]
  | cons c cs ih =>
    simp only [List.cons_append, digitsVal, List.append_eq, List.length_append,
      List.length_singleton, ih]
    ring

theorem digitsAux_val : ∀ (fuel t : Nat), t < 10 ^ fuel → 0 < fuel →
    digitsVal (digitsAux t fuel) = t := by
  intro fuel
  induction fuel with
  | zero => intro t _ h; omega
  | succ n ih =>
    intro t ht _
    by_cases h : t < 10
    · simp [digitsAux, h, digitsVal]
    · have h10 : 10 ≤ t := Nat.le_of_not_lt h
      have hn : 0 < n := by
        by_contra hc
        have : n = 0 := by omega
        subst this
        simp [pow_succ, pow_zero] at ht
        omega
      have hdiv : t / 10 < 10 ^ n := by
        apply (Nat.div_lt_iff_lt_mul (by norm_num)).mpr
        calc t < 10 ^ (n + 1) := ht
        _ = 10 ^ n * 10 := by ring
      simp only [digitsAux, h, if_false]
      rw [digitsVal_append_singleton, ih (t / 10) hdiv hn]
      omega

theorem digitsAux_lt_ten : ∀ (fuel t : Nat), ∀ d ∈ digitsAux t fuel, d < 10 := by
  intro fuel
  induction fuel with
  | zero => intro t d hd; simp [digitsAux] at hd
  | succ n ih =>
    intro t d hd
    by_cases h : t < 10
    · simp [digitsAux, h] at hd
      omega
    · simp only [digitsAux, h, if_false, List.mem_append, List.mem_singleton] at hd
      rcases hd with hd | hd
      · exact ih _ _ hd
      · subst hd; exact Nat.mod_lt _ (by norm_num)

theorem digitsAux_length_le : ∀ (fuel t w : Nat), 0 < w → t < 10 ^ w →
    (digitsAux t fuel).length ≤ w := by
  intro fuel
  induction fuel with
  | zero => intro t w _ _; simp [digitsAux]
  | succ n ih =>
    intro t w hw ht
    by_cases h : t < 10
    · simp [digitsAux, h]; omega
    · have h10 : 10 ≤ t := Nat.le_of_not_lt h
      have hw2 : 2 ≤ w := by
        by_contra hc
        have : w = 1 := by omega
        subst this
        simp [pow_one] at ht
        omega
      have hdiv : t / 10 < 10 ^ (w - 1) := by
        apply (Nat.div_lt_iff_lt_mul (by norm_num)).mpr
        calc t < 10 ^ w := ht
        _ = 10 ^ (w - 1) * 10 := by
              rw [← pow_succ]
              congr 1
              omega
      simp only [digitsAux, h, if_false, List.length_append, List.length_cons,
        List.length_nil]
      have := ih (t / 10) (w - 1) (by omega) hdiv
      omega

theorem digitsVal_lt (ds : List Nat) (h : ∀ d ∈ ds, d < 10) :
    digitsVal ds < 10 ^ ds.length := by
  induction ds with
  | nil => simp [digitsVal]
  | cons d rest ih =>
    simp only [digitsVal, List.length_cons, pow_succ]
    have hd : d < 10 := h d (by simp)
    have hrest := ih (fun x hx => h x (by simp [hx]))
    calc d * 10 ^ rest.length + digitsVal rest
        < d * 10 ^ rest.length + 10 ^ rest.length := by omega
      _ = (d + 1) * 10 ^ rest.length := by ring
      _ ≤ 10 * 10 ^ rest.length := by
          apply Nat.mul_le_mul_right
          omega
      _ = 10 ^ rest.length * 10 := by ring

theorem digitsVal_replicate_zero_append (k : Nat) (ds : List Nat) :
    digitsVal (List.replicate k 0 ++ ds) = digitsVal ds := by
  induction k with
  | zero => simp
  | succ n ih =>
    simp [List.replicate_succ, digitsVal, ih]

theorem pad8_val (t : Nat) (ht : t < 10 ^ 64) : digitsVal (pad8 t) = t := by
  unfold pad8
  rw [digitsVal_replicate_zero_append]
  exact digitsAux_val 64 t ht (by norm_num)

theorem pad8_length (t : Nat) (ht : t < 10 ^ 8) : (pad8 t).length = 8 := by
  unfold pad8
  have hlen : (natDigits t).length ≤ 8 := digitsAux_length_le 64 t 8 (by norm_num) ht
  simp [List.length_append, List.length_replicate]
  omega

theorem pad8_lt_ten (t : Nat) : ∀ d ∈ pad8 t, d < 10 := by
  intro d hd
  unfold pad8 at hd
  rcases List.mem_append.mp hd with hd | hd
  · have := List.eq_of_mem_replicate hd
    omega
  · exact digitsAux_lt_ten 64 t d hd

/-- Core lemma: on equal-length valid digit lists, the lexicographic order of
the rendered characters is exactly the numeric order of the values. -/
theorem lexLt_digit_lists : ∀ (ds₁ ds₂ : List Nat),
    ds₁.length = ds₂.length →
    (∀ d ∈ ds₁, d < 10) → (∀ d ∈ ds₂, d < 10) →
    (lexLt (ds₁.map digitChar) (ds₂.map digitChar) = true ↔ digitsVal ds₁ < digitsVal ds₂) := by
  intro ds₁
  induction ds₁ with
  | nil =>
    intro ds₂ hlen _ _
    have : ds₂ = [] := List.eq_nil_of_length_eq_zero hlen.symm
    subst this
    simp [lexLt, digitsVal]
  | cons a as ih =>
    intro ds₂ hlen h₁ h₂
    cases ds₂ with
    | nil => simp at hlen
    | cons b bs =>
      simp only [List.length_cons, Nat.succ_inj'] at hlen
      have ha : a < 10 := h₁ a (by simp)
      have hb : b < 10 := h₂ b (by simp)
      have has : ∀ d ∈ as, d < 10 := fun d hd => h₁ d (by simp [hd])
      have hbs : ∀ d ∈ bs, d < 10 := fun d hd => h₂ d (by simp [hd])
      have hvas : digitsVal as < 10 ^ as.length := digitsVal_lt as has
      have hvbs : digitsVal bs < 10 ^ bs.length := digitsVal_lt bs hbs
      simp only [List.map_cons, lexLt, digitChar]
      rcases Nat.lt_trichotomy a b with hab | hab | hab
      · have hv : digitsVal (a :: as) < digitsVal (b :: bs) := by
          simp only [digitsVal, hlen]
          calc a * 10 ^ bs.length + digitsVal as
              < a * 10 ^ bs.length + 10 ^ bs.length := by rw [← hlen]; omega
            _ = (a + 1) * 10 ^ bs.length := by ring
            _ ≤ b * 10 ^ bs.length := Nat.mul_le_mul_right _ (by omega)
            _ ≤ b * 10 ^ bs.length + digitsVal bs := Nat.le_add_right _ _
        have hc : 48 + a < 48 + b := by omega
        rw [if_pos hc]
        exact iff_of_true rfl hv
      · subst hab
        simp only [Nat.lt_irrefl, if_false]
        rw [ih bs hlen has hbs]
        simp only [digitsVal, hlen]
        omega
      · have hv : digitsVal (b :: bs) < digitsVal (a :: as) := by
          simp only [digitsVal, hlen]
          calc b * 10 ^ bs.length + digitsVal bs
              < b * 10 ^ bs.length + 10 ^ bs.length := by omega
            _ = (b + 1) * 10 ^ bs.length := by ring
            _ ≤ a * 10 ^ bs.length := Nat.mul_le_mul_right _ (by omega)
            _ ≤ a * 10 ^ bs.length + digitsVal as := Nat.le_add_right _ _
        have hc₁ : ¬ (48 + a < 48 + b) := by omega
        have hc₂ : 48 + b < 48 + a := by omega
        rw [if_neg hc₁, if_pos hc₂]
        exact iff_of_false Bool.false_ne_true (by omega)

theorem pad8c_lt_of_tick_lt {t₁ t₂ : Nat} (h : t₁ < t₂)
    (h₂ : t₂ < 10 ^ 8) : lexLt (pad8c t₁) (pad8c t₂) = true := by
  have h₁ : t₁ < 10 ^ 8 := lt_trans h h₂
  have hb : (10 : Nat) ^ 8 < 10 ^ 64 := by norm_num
  have := lexLt_digit_lists (pad8 t₁) (pad8 t₂)
    (by rw [pad8_length t₁ h₁, pad8_length t₂ h₂])
    (pad8_lt_ten t₁) (pad8_lt_ten t₂)
  rw [pad8c, pad8c, this, pad8_val t₁ (lt_trans h₁ hb), pad8_val t₂ (lt_trans h₂ hb)]
  exact h

theorem pad8c_length (t : Nat) (ht : t < 10 ^ 8) : (pad8c t).length = 8 := by
  rw [pad8c, List.length_map]
  exact pad8_length t ht

/-! Lexicographic facts about appending, used to lift the padded-tick order
to whole filenames. -/

theorem lexLt_append_of_lt : ∀ {xs ys : List Nat}, xs.length = ys.length →
    lexLt xs ys = true → ∀ (u v : List Nat), lexLt (xs ++ u) (ys ++ v) = true := by
  intro xs
  induction xs with
  | nil =>
    intro ys hlen h _ _
    have : ys = [] := List.eq_nil_of_length_eq_zero hlen.symm
    subst this
    simp [lexLt] at h
  | cons a as ih =>
    intro ys hlen h u v
    cases ys with
    | nil => simp at hlen
    | cons b bs =>
      simp only [List.length_cons, Nat.succ_inj'] at hlen
      simp only [lexLt, List.cons_append] at h ⊢
      rcases Nat.lt_trichotomy a b with hab | hab | hab
      · simp [hab]
      · subst hab
        simp only [Nat.lt_irrefl, if_false] at h ⊢
        exact ih hlen h u v
      · simp [hab, Nat.lt_asymm hab] at h

theorem lexLt_append_left : ∀ (xs u v : List Nat),
    lexLt (xs ++ u) (xs ++ v) = lexLt u v := by
  intro xs
  induction xs with
  | nil => intro u v; rfl
  | cons a as ih =>
    intro u v
    simp [lexLt, ih]

/-- Appending a common suffix whose head is strictly below every character of
the two lists does not disturb their order (used with the suffix `".json"`,
whose head `'.'` = 46 is below every hex-id character). -/
theorem lexLt_append_suffix : ∀ (xs ys s : List Nat) (c : Nat), s = c :: s.tail →
    (∀ x ∈ xs, c < x) → (∀ y ∈ ys, c < y) →
    lexLt (xs ++ s) (ys ++ s) = lexLt xs ys := by
  intro xs
  induction xs with
  | nil =>
    intro ys s c hs _ hy
    cases ys with
    | nil => simp [lexLt_irrefl, lexLt]
    | cons b bs =>
      rw [hs]
      simp only [List.nil_append, List.cons_append, lexLt]
      have : c < b := hy b (by simp)
      simp [this, lexLt]
  | cons a as ih =>
    intro ys s c hs hx hy
    cases ys with
    | nil =>
      rw [hs]
      simp only [List.cons_append, List.nil_append, lexLt]
      have : c < a := hx a (by simp)
      simp [this, Nat.lt_asymm this]
    | cons b bs =>
      simp only [List.cons_append, lexLt]
      rcases Nat.lt_trichotomy a b with hab | hab | hab
      · simp [hab]
      · subst hab
        simp only [Nat.lt_irrefl, if_false]
        exact ih bs s c hs (fun x h => hx x (by simp [h])) (fun y h => hy y (by simp [h]))
      · simp [hab, Nat.lt_asymm hab]

theorem outbox_filename_lt_of_tick_lt {e₁ e₂ : OutboxEntry}
    (h : e₁.tick < e₂.tick) (h₂ : e₂.tick < 10 ^ 8) :
    lexLt (outbox_filename e₁) (outbox_filename e₂) = true := by
  have h₁ : e₁.tick < 10 ^ 8 := lt_trans h h₂
  unfold outbox_filename
  rw [List.append_assoc, List.append_assoc, List.append_assoc, List.append_assoc]
  exact lexLt_append_of_lt
    (by rw [pad8c_length e₁.tick h₁, pad8c_length e₂.tick h₂])
    (pad8c_lt_of_tick_lt h h₂) _ _

/-- C5 (amended): for ticks below `10^8` (the zero-pad width) and ids over
characters above `'.'` (as the hex ids produced by `OutboxEntry.create`
are), the persisted filenames compare lexicographically exactly as the
`(tick, id)` pairs do. -/
theorem outbox_filename_sorts_like_tick_id (e₁ e₂ : OutboxEntry)
    (h₁ : e₁.tick < 10 ^ 8) (h₂ : e₂.tick < 10 ^ 8)
    (hid₁ : ∀ c ∈ e₁.id, 46 < c) (hid₂ : ∀ c ∈ e₂.id, 46 < c) :
    (lexLt (outbox_filename e₁) (outbox_filename e₂) = true ↔
      (e₁.tick < e₂.tick ∨ (e₁.tick = e₂.tick ∧ lexLt e₁.id e₂.id = true))) := by
  rcases Nat.lt_trichotomy e₁.tick e₂.tick with ht | ht | ht
  · exact iff_of_true (outbox_filename_lt_of_tick_lt ht h₂) (Or.inl ht)
  · have hfn : lexLt (outbox_filename e₁) (outbox_filename e₂) = lexLt e₁.id e₂.id := by
      unfold outbox_filename
      rw [ht]
      rw [List.append_assoc, List.append_assoc, List.append_assoc, List.append_assoc,
        lexLt_append_left, lexLt_append_left]
      exact lexLt_append_suffix e₁.id e₂.id dotJson 46 rfl hid₁ hid₂
    rw [hfn]
    constructor
    · intro hlt; exact Or.inr ⟨ht, hlt⟩
    · intro hor
      rcases hor with hor | hor
      · omega
      · exact hor.2
  · have hrev : lexLt (outbox_filename e₂) (outbox_filename e₁) = true :=
      outbox_filename_lt_of_tick_lt ht h₁
    refine iff_of_false ?_ ?_
    · simp [lexLt_asymm hrev]
    · intro hor
      rcases hor with hor | ⟨hor, _⟩ <;> omega

/-- Witness for C5: two concrete entries with hex ids and small ticks. -/
theorem outbox_filename_sorts_like_tick_id_witness :
    (lexLt
        (outbox_filename
          { id := [97, 98], tick := 5, agent := [120], kind := [109],
            payload := [], tags := [], created_at := [84] })
        (outbox_filename
          { id := [97, 97], tick := 7, agent := [121], kind := [109],
            payload := [], tags := [], created_at := [84] }) = true ↔
      ((5 : Nat) < 7 ∨ ((5 : Nat) = 7 ∧ lexLt [97, 98] [97, 97] = true))) :=
  outbox_filename_sorts_like_tick_id
    { id := [97, 98], tick := 5, agent := [120], kind := [109],
      payload := [], tags := [], created_at := [84] }
    { id := [97, 97], tick := 7, agent := [121], kind := [109],
      payload := [], tags := [], created_at := [84] }
    (by norm_num) (by norm_num) (by decide) (by decide)

/-- Counterexample to C5 as stated: at ticks `99999999` and `100000000`
(both non-negative) the `(tick, id)` order and the filename order disagree,
because a 9-digit tick escapes the 8-character zero padding. -/
theorem outbox_filename_order_counterexample :
    ((99999999 : Nat) < 100000000 ∨
        ((99999999 : Nat) = 100000000 ∧ lexLt [97] [97] = true)) ∧
      lexLt
        (outbox_filename
          { id := [97], tick := 99999999, agent := [120], kind := [109],
            payload := [], tags := [], created_at := [84] })
        (outbox_filename
          { id := [97], tick := 100000000, agent := [120], kind := [109],
            payload := [], tags := [], created_at := [84] }) = false := by
  constructor
  · exact Or.inl (by norm_num)
  · decide

theorem kLt_true_iff (x y : Nat × List Nat) :
    kLt x y = true ↔ (x.1 < y.1 ∨ (x.1 = y.1 ∧ lexLt x.2 y.2 = true)) := by
  simp [kLt]

theorem kLt_false_iff (x y : Nat × List Nat) :
    kLt x y = false ↔ (¬ (x.1 < y.1) ∧ (x.1 ≠ y.1 ∨ lexLt x.2 y.2 = false)) := by
  simp [kLt, Bool.or_eq_false_iff, Bool.and_eq_false_iff, decide_eq_false_iff_not]
  tauto

theorem lexLt_negtrans {a b c : List Nat}
    (hab : lexLt a b = false) (hbc : lexLt b c = false) : lexLt a c = false := by
  cases hac : lexLt a c with
  | false => rfl
  | true =>
    cases hba : lexLt b a with
    | true =>
      have := lexLt_trans hba hac
      rw [this] at hbc
      cases hbc
    | false =>
      have hab' := lexLt_connex hab hba
      subst hab'
      rw [hac] at hbc
      cases hbc

theorem kLt_asymm (x y : Nat × List Nat) (h : kLt x y = true) : kLt y x = false := by
  rw [kLt_true_iff] at h
  rw [kLt_false_iff]
  rcases h with h | ⟨h₁, h₂⟩
  · exact ⟨by omega, Or.inl (by omega)⟩
  · exact ⟨by omega, Or.inr (lexLt_asymm h₂)⟩

theorem kLt_negtrans (x y z : Nat × List Nat)
    (hxy : kLt x y = false) (hyz : kLt y z = false) : kLt x z = false := by
  rw [kLt_false_iff] at hxy hyz ⊢
  rcases hxy with ⟨h₁, h₂⟩
  rcases hyz with ⟨h₃, h₄⟩
  refine ⟨by omega, ?_⟩
  by_cases hxz : x.1 = z.1
  · have hxy1 : x.1 = y.1 := by omega
    have hyz1 : y.1 = z.1 := by omega
    rcases h₂ with h₂ | h₂
    · exact absurd hxy1 h₂
    · rcases h₄ with h₄ | h₄
      · exact absurd hyz1 h₄
      · exact Or.inr (lexLt_negtrans h₂ h₄)
  · exact Or.inl hxz

theorem ltName_asymm (e f : OutboxEntry) (h : ltName e f = true) : ltName f e = false :=
  lexLt_asymm h

theorem ltName_negtrans (e f g : OutboxEntry)
    (h₁ : ltName e f = false) (h₂ : ltName f g = false) : ltName e g = false :=
  lexLt_negtrans h₁ h₂

theorem ltTC_asymm (e f : OutboxEntry) (h : ltTC e f = true) : ltTC f e = false :=
  kLt_asymm _ _ h

theorem ltTC_negtrans (e f g : OutboxEntry)
    (h₁ : ltTC e f = false) (h₂ : ltTC f g = false) : ltTC e g = false :=
  kLt_negtrans _ _ _ h₁ h₂

theorem ltTN_asymm (e f : OutboxEntry) (h : ltTN e f = true) : ltTN f e = false :=
  kLt_asymm _ _ h

theorem ltTN_negtrans (e f g : OutboxEntry)
    (h₁ : ltTN e f = false) (h₂ : ltTN f g = false) : ltTN e g = false :=
  kLt_negtrans _ _ _ h₁ h₂

theorem sortDescBy_perm (lt : α → α → Bool) (l : List α) :
    (sortDescBy lt l).Perm l := sSort_perm _ l

theorem sortDescBy_pairwise (lt : α → α → Bool)
    (hasymm : ∀ a b, lt a b = true → lt b a = false)
    (hnegtrans : ∀ a b c, lt a b = false → lt b c = false → lt a c = false)
    (l : List α) :
    (sortDescBy lt l).Pairwise (fun a b => lt a b = false) := by
  have h := sSort_pairwise (fun x y => ! lt x y)
    (by
      intro a b
      cases hab : lt a b with
      | false => exact Or.inl (by simp [hab])
      | true => exact Or.inr (by simp [hasymm a b hab]))
    (by
      intro a b c h₁ h₂
      simp only [Bool.not_eq_true'] at h₁ h₂ ⊢
      exact hnegtrans a b c h₁ h₂)
    l
  exact h.imp (by intro a b hab; simpa using hab)

theorem sortDescBy_eq_self (lt : α → α → Bool) {l : List α}
    (h : l.Pairwise (fun a b => lt a b = false)) : sortDescBy lt l = l :=
  sSort_eq_self _ (h.imp (by intro a b hab; simpa using hab))

/-! ### C4 support: evaluating the read path at `since_tick = None` -/

theorem hMerge_nil_right (lt : α → α → Bool) (l : List α) : hMerge lt l [] = l := by
  cases l <;> rfl

theorem scanLoop_none_take (limit : Nat) :
    ∀ (l : List OutboxEntry) (c : Nat), c < limit →
      scanLoop none limit l c = l.take (limit - c) := by
  intro l
  induction l with
  | nil => intro c _; simp [scanLoop]
  | cons e rest ih =>
    intro c hc
    simp only [scanLoop, belowSince, if_false, Bool.false_eq_true]
    by_cases h : limit ≤ c + 1
    · have hl : limit - c = 1 := by omega
      simp [h, hc.trans_le (le_refl _), hl]
      omega
    · have hl : limit - c = (limit - (c + 1)) + 1 := by omega
      rw [if_neg (by omega), ih (c + 1) (by omega), hl]
      simp [List.take_succ_cons]

theorem scan_outbox_files_none (L : List OutboxEntry) (limit : Nat) (hl : 0 < limit) :
    scan_outbox_files L none limit = (sortDescBy ltName L).take limit := by
  rw [scan_outbox_files, scanLoop_none_take limit _ 0 hl, Nat.sub_zero]

theorem readLoop_none_all (limit : Nat) :
    ∀ (names acc : List OutboxEntry) (minT : Option Nat),
      names.length + acc.length ≤ limit →
      readLoop limit none names acc minT = acc ++ names := by
  intro names
  induction names with
  | nil => intro acc minT _; simp [readLoop]
  | cons e rest ih =>
    intro acc minT hlen
    simp only [List.length_cons] at hlen
    have hd : decide (limit ≤ acc.length) = false := decide_eq_false (by omega)
    simp only [readLoop, belowSince, if_false, Bool.false_eq_true, hd, Bool.false_and]
    rw [ih (acc ++ [e]) _ (by simp; omega)]
    simp

theorem read_outbox_entries_none (L : List OutboxEntry) (limit : Nat) (hl : 0 < limit) :
    read_outbox_entries L limit none =
      sortDescBy ltTC ((sortDescBy ltName L).take limit) := by
  rw [read_outbox_entries, if_neg (by omega)]
  have hlen : ((sortDescBy ltName L).take limit).length ≤ limit := by
    rw [List.length_take]
    exact min_le_left _ _
  show (sortDescBy ltTC
      (readLoop limit none ((sortDescBy ltName L).take limit) [] none)).take limit = _
  rw [readLoop_none_all limit _ [] none
    (by simp only [List.length_nil, Nat.add_zero]; exact hlen)]
  simp only [List.nil_append]
  apply List.take_of_length_le
  rw [((sortDescBy_perm ltTC _).length_eq)]
  exact hlen

theorem pairwise_tickGT_of_name {l : List OutboxEntry}
    (hname : l.Pairwise (fun e f => ltName e f = false))
    (hne : l.Pairwise (fun e f => e.tick ≠ f.tick))
    (hb : ∀ e ∈ l, e.tick < 10 ^ 8) :
    l.Pairwise tickGT := by
  refine (hname.and hne).imp_of_mem ?_
  intro e f he hf ⟨h₁, h₂⟩
  rcases Nat.lt_trichotomy e.tick f.tick with ht | ht | ht
  · have := outbox_filename_lt_of_tick_lt ht (hb f hf)
    rw [ltName, this] at h₁
    cases h₁
  · exact absurd ht h₂
  · exact ht

theorem pairwise_tickGT_of_TN {l : List OutboxEntry}
    (htn : l.Pairwise (fun e f => ltTN e f = false))
    (hne : l.Pairwise (fun e f => e.tick ≠ f.tick)) :
    l.Pairwise tickGT := by
  refine (htn.and hne).imp ?_
  intro e f ⟨h₁, h₂⟩
  rw [ltTN, kLt_false_iff] at h₁
  have := h₁.1
  simp only [tickGT]
  omega

theorem pairwise_tickGT_of_TC {l : List OutboxEntry}
    (htc : l.Pairwise (fun e f => ltTC e f = false))
    (hne : l.Pairwise (fun e f => e.tick ≠ f.tick)) :
    l.Pairwise tickGT := by
  refine (htc.and hne).imp ?_
  intro e f ⟨h₁, h₂⟩
  rw [ltTC, kLt_false_iff] at h₁
  have := h₁.1
  simp only [tickGT]
  omega

theorem TC_false_of_tickGT {e f : OutboxEntry} (h : tickGT e f) : ltTC e f = false := by
  rw [ltTC, kLt_false_iff]
  exact ⟨by simp only [tickGT] at h; omega, Or.inl (by simp only [tickGT] at h; omega)⟩

theorem TN_false_of_tickGT {e f : OutboxEntry} (h : tickGT e f) : ltTN e f = false := by
  rw [ltTN, kLt_false_iff]
  exact ⟨by simp only [tickGT] at h; omega, Or.inl (by simp only [tickGT] at h; omega)⟩

/-- C4 (amended): the merged read agrees with the
read-each/concatenate/sort/truncate reference whenever no two entries
across the two outboxes share a tick (and ticks stay below the `10^8`
zero-pad bound). With shared ticks the merged read selects and orders
candidates by `(tick, filename)` while the reference truncates by
`(tick, created_at)`, and the two can disagree. -/
theorem read_multi_agent_matches_reference (La Lb : List OutboxEntry) (limit : Nat)
    (hlim : 0 < limit)
    (hne : (La ++ Lb).Pairwise (fun e f => e.tick ≠ f.tick))
    (hb : ∀ e ∈ La ++ Lb, e.tick < 10 ^ 8) :
    read_multi_agent_outbox_entries [La, Lb] limit none = referenceMergedRead La Lb limit := by
  have hsymm : ∀ {x y : OutboxEntry}, x.tick ≠ y.tick → y.tick ≠ x.tick :=
    fun h => Ne.symm h
  rcases List.pairwise_append.mp hne with ⟨hneA, hneB, hcross⟩
  have hbA : ∀ e ∈ La, e.tick < 10 ^ 8 :=
    fun e he => hb e (List.mem_append.mpr (Or.inl he))
  have hbB : ∀ e ∈ Lb, e.tick < 10 ^ 8 :=
    fun e he => hb e (List.mem_append.mpr (Or.inr he))
  set sa := (sortDescBy ltName La).take limit with hsa
  set sb := (sortDescBy ltName Lb).take limit with hsb
  have hsubA : ∀ e ∈ sa, e ∈ La := by
    intro e he
    exact (sortDescBy_perm ltName La).subset ((List.take_sublist _ _).subset he)
  have hsubB : ∀ e ∈ sb, e ∈ Lb := by
    intro e he
    exact (sortDescBy_perm ltName Lb).subset ((List.take_sublist _ _).subset he)
  have hPnameA : sa.Pairwise (fun e f => ltName e f = false) :=
    List.Pairwise.sublist (List.take_sublist _ _)
      (sortDescBy_pairwise ltName ltName_asymm ltName_negtrans La)
  have hPnameB : sb.Pairwise (fun e f => ltName e f = false) :=
    List.Pairwise.sublist (List.take_sublist _ _)
      (sortDescBy_pairwise ltName ltName_asymm ltName_negtrans Lb)
  have hneSA : sa.Pairwise (fun e f => e.tick ≠ f.tick) :=
    List.Pairwise.sublist (List.take_sublist _ _)
      ((List.Perm.pairwise_iff hsymm (sortDescBy_perm ltName La)).mpr hneA)
  have hneSB : sb.Pairwise (fun e f => e.tick ≠ f.tick) :=
    List.Pairwise.sublist (List.take_sublist _ _)
      ((List.Perm.pairwise_iff hsymm (sortDescBy_perm ltName Lb)).mpr hneB)
  have hTa : sa.Pairwise tickGT :=
    pairwise_tickGT_of_name hPnameA hneSA (fun e he => hbA e (hsubA e he))
  have hTb : sb.Pairwise tickGT :=
    pairwise_tickGT_of_name hPnameB hneSB (fun e he => hbB e (hsubB e he))
  set M := hMerge ltTN sa sb with hM
  have hMperm : M.Perm (sa ++ sb) := hMerge_perm ltTN sa sb
  have hMTN : M.Pairwise (fun e f => ltTN e f = false) :=
    hMerge_pairwise ltTN ltTN_asymm ltTN_negtrans sa sb
      (hTa.imp fun h => TN_false_of_tickGT h)
      (hTb.imp fun h => TN_false_of_tickGT h)
  have hneSaSb : (sa ++ sb).Pairwise (fun e f => e.tick ≠ f.tick) :=
    List.pairwise_append.mpr
      ⟨hneSA, hneSB, fun e he f hf => hcross e (hsubA e he) f (hsubB f hf)⟩
  have hMne : M.Pairwise (fun e f => e.tick ≠ f.tick) :=
    (List.Perm.pairwise_iff hsymm hMperm).mpr hneSaSb
  have hMT : M.Pairwise tickGT := pairwise_tickGT_of_TN hMTN hMne
  have hra : read_outbox_entries La limit none = sortDescBy ltTC sa := by
    rw [read_outbox_entries_none La limit hlim]
  have hrb : read_outbox_entries Lb limit none = sortDescBy ltTC sb := by
    rw [read_outbox_entries_none Lb limit hlim]
  set N := sortDescBy ltTC (sortDescBy ltTC sa ++ sortDescBy ltTC sb) with hN
  have hNperm : N.Perm (sa ++ sb) :=
    (sortDescBy_perm ltTC _).trans
      ((sortDescBy_perm ltTC sa).append (sortDescBy_perm ltTC sb))
  have hNTC : N.Pairwise (fun e f => ltTC e f = false) :=
    sortDescBy_pairwise ltTC ltTC_asymm ltTC_negtrans _
  have hNne : N.Pairwise (fun e f => e.tick ≠ f.tick) :=
    (List.Perm.pairwise_iff hsymm hNperm).mpr hneSaSb
  have hNT : N.Pairwise tickGT := pairwise_tickGT_of_TC hNTC hNne
  haveI : IsAntisymm OutboxEntry tickGT :=
    ⟨fun a b h₁ h₂ => absurd (lt_trans h₁ h₂) (lt_irrefl _)⟩
  have hMN : M = N := List.eq_of_perm_of_sorted (hMperm.trans hNperm.symm) hMT hNT
  have hscanA : scan_outbox_files La none limit = sa := by
    rw [scan_outbox_files_none La limit hlim]
  have hscanB : scan_outbox_files Lb none limit = sb := by
    rw [scan_outbox_files_none Lb limit hlim]
  have hMtakeTC : (M.take limit).Pairwise (fun e f => ltTC e f = false) :=
    (List.Pairwise.sublist (List.take_sublist _ _) hMT).imp fun h => TC_false_of_tickGT h
  have hLHS : read_multi_agent_outbox_entries [La, Lb] limit none = M.take limit := by
    rw [read_multi_agent_outbox_entries, if_neg (by omega)]
    show sortDescBy ltTC
        ((([La, Lb].map (fun L => scan_outbox_files L none limit)).foldr
          (hMerge ltTN) []).take limit) = M.take limit
    simp only [List.map_cons, List.map_nil, List.foldr_cons, List.foldr_nil]
    rw [hscanA, hscanB, hMerge_nil_right, ← hM]
    exact sortDescBy_eq_self ltTC hMtakeTC
  have hRHS : referenceMergedRead La Lb limit = N.take limit := by
    rw [referenceMergedRead, hra, hrb]
  rw [hLHS, hRHS, hMN]

/-- Counterexample to C4 as stated: with one same-tick entry in each of the
two outboxes, the merged read keeps the entry with the larger filename
(id `"bb"`) while the reference keeps the one with the newer `created_at`
(id `"aa"`). -/
theorem read_multi_agent_counterexample :
    (read_multi_agent_outbox_entries [[ceA], [ceB]] 1 none).map (fun e => e.id) ≠
      (referenceMergedRead [ceA] [ceB] 1).map (fun e => e.id) := by
  decide

/-- Witness for C4's amended theorem at a concrete tick-distinct input. -/
theorem read_multi_agent_matches_reference_witness :
    read_multi_agent_outbox_entries [[ceA], [ceC]] 1 none =
      referenceMergedRead [ceA] [ceC] 1 :=
  read_multi_agent_matches_reference [ceA] [ceC] 1 (by decide) (by decide) (by decide)

/-- C9 (amended): the parser is total and tolerant. A failed JSON parse, a
non-object top level, and an empty object all yield the all-default
`TurnResult`; non-object outbox rows and memory rows without a `key` are
dropped individually; an object outbox row is always kept (a bad
`to`/`recipients` type only clears the `recipients` field — it does not
drop the entry). -/
theorem parse_llm_output_tolerant :
    (parse_llm_output none = defaultTurnResult) ∧
    (parse_llm_output (some JVal.null) = defaultTurnResult) ∧
    (∀ b, parse_llm_output (some (JVal.boolean b)) = defaultTurnResult) ∧
    (∀ n, parse_llm_output (some (JVal.num n)) = defaultTurnResult) ∧
    (∀ s, parse_llm_output (some (JVal.str s)) = defaultTurnResult) ∧
    (∀ l, parse_llm_output (some (JVal.arr l)) = defaultTurnResult) ∧
    (parse_llm_output (some (JVal.obj [])) = defaultTurnResult) ∧
    (∀ x rest, (∀ fields, x ≠ JVal.obj fields) →
      sanitize_outbox (x :: rest) = sanitize_outbox rest) ∧
    (∀ x rest, (∀ fields, x ≠ JVal.obj fields) →
      sanitize_memory (x :: rest) = sanitize_memory rest) ∧
    (∀ fields rest, jlookup fields sKey = none →
      sanitize_memory (JVal.obj fields :: rest) = sanitize_memory rest) ∧
    (∀ fields rest,
      (sanitize_outbox (JVal.obj fields :: rest)).length = (sanitize_outbox rest).length + 1) := by
  refine ⟨rfl, rfl, fun _ => rfl, fun _ => rfl, fun _ => rfl, fun _ => rfl, rfl, ?_, ?_, ?_, ?_⟩
  · intro x rest h
    cases x with
    | obj fields => exact absurd rfl (h fields)
    | null => rfl
    | boolean b => rfl
    | num n => rfl
    | str s => rfl
    | arr l => rfl
  · intro x rest h
    cases x with
    | obj fields => exact absurd rfl (h fields)
    | null => rfl
    | boolean b => rfl
    | num n => rfl
    | str s => rfl
    | arr l => rfl
  · intro fields rest h
    simp [sanitize_memory, h]
  · intro fields rest
    simp [sanitize_outbox]

/-- Witness for C9's amended theorem: a non-object outbox row and a
keyless memory row vanish from concrete inputs. -/
theorem parse_llm_output_tolerant_witness :
    sanitize_outbox [JVal.num 3] = sanitize_outbox [] ∧
      sanitize_memory [JVal.obj []] = sanitize_memory [] :=
  ⟨parse_llm_output_tolerant.2.2.2.2.2.2.2.1 (JVal.num 3) []
      (fun _ hf => JVal.noConfusion hf),
    parse_llm_output_tolerant.2.2.2.2.2.2.2.2.2.1 [] [] rfl⟩

/-- Counterexample to C9 as stated: an outbox row whose `to` field has a
bad type (`42`) is NOT dropped — it is kept with `recipients = None`. -/
theorem parse_llm_output_bad_recipients_counterexample :
    (parse_llm_output
        (some (JVal.obj [(sOutboxEntries, JVal.arr [JVal.obj [(sTo, JVal.num 42)]])]))).outbox_entries.length = 1 ∧
      (parse_llm_output
        (some (JVal.obj [(sOutboxEntries, JVal.arr [JVal.obj [(sTo, JVal.num 42)]])]))).outbox_entries.map
          (fun pe => pe.recipients) = [none] := by
  constructor <;> rfl

/-- Counterexample to C3 as stated: with the EMPTY allow-list the code
treats sending as unrestricted, so an entry addressed to `"stranger"` is
written rather than dropped. -/
theorem apply_outbox_entries_empty_list_counterexample :
    apply_outbox_entries (some []) [peStranger] = [peStranger] := rfl

/-- C3 (amended): a `nil`, empty, or wildcard `sendableOutboxes` list is
unrestricted; any other list is an allow-list under which an entry
survives exactly when it has recipients and all of them are listed. -/
theorem apply_outbox_entries_allowlist :
    (∀ entries, apply_outbox_entries none entries = entries) ∧
    (∀ entries, apply_outbox_entries (some []) entries = entries) ∧
    (∀ entries, apply_outbox_entries (some [sStar]) entries = entries) ∧
    (∀ l entries, l ≠ [] → l ≠ [sStar] →
      apply_outbox_entries (some l) entries =
        entries.filter (fun e =>
          match e.recipients with
          | none => false
          | some rs => rs.all (fun r => decide (r ∈ l)))) := by
  refine ⟨?_, ?_, ?_, ?_⟩
  · intro entries
    simp [apply_outbox_entries]
  · intro entries
    simp [apply_outbox_entries]
  · intro entries
    simp [apply_outbox_entries]
  · intro l entries h₁ h₂
    simp only [apply_outbox_entries, if_neg h₁, if_neg h₂]

/-- Witness for C3's amended theorem: allow-list `["friend"]` keeps the
entry to `"friend"` and drops the entry to `"stranger"`. -/
theorem apply_outbox_entries_allowlist_witness :
    apply_outbox_entries (some [sFriend]) [peFriend, peStranger] = [peFriend] := by
  rw [apply_outbox_entries_allowlist.2.2.2 [sFriend] [peFriend, peStranger]
    (by simp) (by decide)]
  rfl

/-- C7: `to_dict`/`from_dict` round-trip identically; a legacy record with
`timestamp` instead of `created_at` deserializes with `created_at` set to
that value; a record with no `recipients` field deserializes with
`recipients = None`. -/
theorem outbox_entry_round_trip :
    (∀ e : OutboxEntry, from_dict (to_dict e) = some e) ∧
    (∀ (i : List Nat) (t : Nat) (ag k : List Nat) (p : List (List Nat × JVal))
        (tg : List JVal) (c : List Nat) (m : List (List Nat × JVal)),
      from_dict
          [(sId, JVal.str i), (sTick, JVal.num (t : Int)), (sAgent, JVal.str ag),
           (sKind, JVal.str k), (sPayload, JVal.obj p),
           (sTags, JVal.arr tg), (sTimestamp, JVal.str c),
           (sMeta, JVal.obj m)] =
        some { id := i, tick := t, agent := ag, kind := k, payload := p, tags := tg,
               created_at := c, recipients := none, meta := m }) ∧
    (∀ (i : List Nat) (t : Nat) (ag k : List Nat) (p : List (List Nat × JVal))
        (tg : List JVal) (c : List Nat) (m : List (List Nat × JVal)),
      from_dict
          [(sId, JVal.str i), (sTick, JVal.num (t : Int)), (sAgent, JVal.str ag),
           (sKind, JVal.str k), (sPayload, JVal.obj p),
           (sTags, JVal.arr tg), (sCreatedAt, JVal.str c),
           (sMeta, JVal.obj m)] =
        some { id := i, tick := t, agent := ag, kind := k, payload := p, tags := tg,
               created_at := c, recipients := none, meta := m }) := by
  refine ⟨?_, ?_, ?_⟩
  · intro e
    rcases e with ⟨i, t, ag, k, p, tg, c, r, m⟩
    cases r with
    | none => rfl
    | some rs => rfl
  · intro i t ag k p tg c m
    rfl
  · intro i t ag k p tg c m
    rfl

/-- C8: with a non-positive balance the whole turn is the skipped trace —
no generator call, no outbox, tool, memory, or ledger side effects. -/
theorem credit_gating (credits_left cost_per_action : ℚ)
    (send_permissions : Option (List (List Nat))) (llm_output : Option JVal)
    (h : credits_left ≤ 0) :
    run_agent_trace credits_left cost_per_action send_permissions llm_output =
      { skipped := true, llm_called := false, outbox_written := [], tool_calls := [],
        memory_updates := [], credits_deducted := none } := by
  rw [run_agent_trace, if_pos h]

/-- Witness for C8 at a zero balance. -/
theorem credit_gating_witness :
    run_agent_trace 0 (1 / 100) none none =
      { skipped := true, llm_called := false, outbox_written := [], tool_calls := [],
        memory_updates := [], credits_deducted := none } :=
  credit_gating 0 (1 / 100) none none (by norm_num)

/-- C1: the code diverges from the spec's firing predicate. At
`run_every_n_ticks = 3`, `phase_offset = 1`, `tick = 1` the spec (and the
repository's own `test_should_run_matches_phase`) expect `True`; the code
computes `(1 + 1 mod 3) mod 3 == 0`, which is `False`. -/
theorem should_run_code_bug :
    should_run { name := [116], schedule := { run_every_n_ticks := 3, phase_offset := 1 } } 1
        = false ∧
      should_run_spec { name := [116], schedule := { run_every_n_ticks := 3, phase_offset := 1 } } 1
        = true := by
  constructor <;> rfl

/-- C2: the code cleans up on every tick. At tick 1 (interval 10) the spec
and the repository's own `test_cleanup_throttling` expect no cleanup, but
`run_tick` invokes it. -/
theorem run_tick_cleanup_code_bug :
    (run_tick_trace [] 1).cleanup_ran = true ∧ cleanup_cadence_spec 1 10 = false := by
  constructor <;> rfl

theorem qkLt_false_iff (x y : ℚ × List Nat) :
    qkLt x y = false ↔ (¬ (x.1 < y.1) ∧ (x.1 ≠ y.1 ∨ lexLt x.2 y.2 = false)) := by
  simp [qkLt, Bool.or_eq_false_iff, Bool.and_eq_false_iff, decide_eq_false_iff_not]
  tauto

theorem qkLt_true_iff (x y : ℚ × List Nat) :
    qkLt x y = true ↔ (x.1 < y.1 ∨ (x.1 = y.1 ∧ lexLt x.2 y.2 = true)) := by
  simp [qkLt]

theorem qkLt_asymm (x y : ℚ × List Nat) (h : qkLt x y = true) : qkLt y x = false := by
  rw [qkLt_true_iff] at h
  rw [qkLt_false_iff]
  rcases h with h | ⟨h₁, h₂⟩
  · exact ⟨lt_asymm h, Or.inl (ne_of_gt h)⟩
  · exact ⟨by rw [h₁]; exact lt_irrefl _, Or.inr (lexLt_asymm h₂)⟩

theorem qkLt_negtrans (x y z : ℚ × List Nat)
    (hxy : qkLt x y = false) (hyz : qkLt y z = false) : qkLt x z = false := by
  rw [qkLt_false_iff] at hxy hyz ⊢
  rcases hxy with ⟨h₁, h₂⟩
  rcases hyz with ⟨h₃, h₄⟩
  have hyx : y.1 ≤ x.1 := not_lt.mp h₁
  have hzy : z.1 ≤ y.1 := not_lt.mp h₃
  refine ⟨not_lt.mpr (hzy.trans hyx), ?_⟩
  by_cases hxz : x.1 = z.1
  · have hxy1 : x.1 = y.1 := by linarith
    have hyz1 : y.1 = z.1 := by linarith
    rcases h₂ with h₂ | h₂
    · exact absurd hxy1 h₂
    · rcases h₄ with h₄ | h₄
      · exact absurd hyz1 h₄
      · exact Or.inr (lexLt_negtrans h₂ h₄)
  · exact Or.inl hxz

theorem fltLt_eq (p q : Nat × Nat) : fltLt p q = decide (fpVal p < fpVal q) := by
  rw [fltLt, decide_eq_decide, fpVal, fpVal,
      div_lt_div_iff₀ (by positivity) (by positivity)]
  exact_mod_cast Iff.rfl

theorem fltEq_eq (p q : Nat × Nat) : fltEq p q = decide (fpVal p = fpVal q) := by
  rw [fltEq, decide_eq_decide, fpVal, fpVal,
      div_eq_div_iff (by positivity) (by positivity)]
  exact_mod_cast Iff.rfl

theorem agentLt_eq_qkLt (x y : AgentR) :
    agentLt x y = qkLt (fpVal (compute_fire_point x), x.name)
      (fpVal (compute_fire_point y), y.name) := by
  simp only [agentLt, qkLt, fltLt_eq, fltEq_eq]

theorem agentLt_asymm (x y : AgentR) (h : agentLt x y = true) : agentLt y x = false := by
  rw [agentLt_eq_qkLt] at h ⊢
  exact qkLt_asymm _ _ h

theorem agentLt_negtrans (x y z : AgentR)
    (h₁ : agentLt x y = false) (h₂ : agentLt y z = false) : agentLt x z = false := by
  rw [agentLt_eq_qkLt] at h₁ h₂ ⊢
  exact qkLt_negtrans _ _ _ h₁ h₂

/-- On every schedule the loader accepts (`run_every_n_ticks` validated
`> 0`; `0`/unset defaulting to 1), the code's fire point is exactly the
binary64 rounding of the spec's rational `((-phaseOffset) mod N) / N`
(the `N = 1` value `0.0` is returned directly and is exact). -/
theorem compute_fire_point_eq_spec (a : AgentR)
    (h : 0 ≤ a.schedule.run_every_n_ticks) :
    compute_fire_point a = fire_point_bits a := by
  rcases a with ⟨nm, r, p⟩
  have hr : 0 ≤ r := h
  simp only [compute_fire_point, fire_point_bits]
  by_cases hr0 : r = 0
  · subst hr0
    have hf : Int.fmod (-p) 1 = 0 := by
      rw [Int.fmod_eq_emod _ (by norm_num : (0 : Int) ≤ 1)]
      exact Int.emod_one _
    simp only [show max (0 : Int) 1 = 1 from rfl, hf]
    rfl
  · by_cases hr1 : r = 1
    · subst hr1
      have hf : Int.fmod (-p) 1 = 0 := by
        rw [Int.fmod_eq_emod _ (by norm_num : (0 : Int) ≤ 1)]
        exact Int.emod_one _
      simp only [show max (1 : Int) 1 = 1 from rfl, hf]
      rfl
    · have hN : max r 1 = r := max_eq_left (by omega)
      have h0 : (0 : Int) ≤ r := by omega
      have hmod : Int.fmod (-(Int.fmod p r)) r = Int.fmod (-p) r := by
        rw [Int.fmod_eq_emod _ h0, Int.fmod_eq_emod _ h0, Int.fmod_eq_emod _ h0]
        exact Int.ModEq.neg (Int.emod_emod_of_dvd p dvd_rfl)
      simp only [if_neg hr0, if_neg hr1, hN, hmod]

/-- C6 (amended): the firing order is exactly the firing agents sorted by
ascending BINARY64 fire point — the round-to-nearest-even double of the
spec's rational `((-phaseOffset) mod N) / N` — with ties on equal doubles
(including distinct rationals that round to the same double) broken by
ascending name; exactly representable fire points, such as `0` when
`N = 1`, are unaffected, so `zulu`, `alpha`, `bravo` (each `N = 1`,
offset 0) at tick 1 still come out as `[alpha, bravo, zulu]`. -/
theorem get_firing_agents_order :
    (∀ (agents : List AgentR) (tick : Int),
      (∀ a ∈ agents, 0 ≤ a.schedule.run_every_n_ticks) →
      (get_firing_agents agents tick).Perm
          (agents.filter (fun a => should_run a tick)) ∧
        (get_firing_agents agents tick).Pairwise (fun x y =>
          fpVal (fire_point_bits x) < fpVal (fire_point_bits y) ∨
            (fpVal (fire_point_bits x) = fpVal (fire_point_bits y) ∧
              lexLt y.name x.name = false))) ∧
    ((get_firing_agents [agZulu, agAlpha, agBravo] 1).map (fun a => a.name) =
      [alphaName, bravoName, zuluName]) := by
  constructor
  · intro agents tick hval
    constructor
    · exact sSort_perm _ _
    · have hp := sSort_pairwise (fun x y => ! agentLt y x)
        (by
          intro a b
          cases hab : agentLt b a with
          | false => exact Or.inl (by simp [hab])
          | true => exact Or.inr (by simp [agentLt_asymm b a hab]))
        (by
          intro a b c h₁ h₂
          simp only [Bool.not_eq_true'] at h₁ h₂ ⊢
          exact agentLt_negtrans c b a h₂ h₁)
        (agents.filter (fun a => should_run a tick))
      refine hp.imp_of_mem ?_
      intro x y hx hy hxy
      have hmemx : x ∈ agents :=
        (List.mem_filter.mp ((sSort_perm _ _).subset hx)).1
      have hmemy : y ∈ agents :=
        (List.mem_filter.mp ((sSort_perm _ _).subset hy)).1
      have hfx : fpVal (compute_fire_point x) = fpVal (fire_point_bits x) :=
        congrArg fpVal (compute_fire_point_eq_spec x (hval x hmemx))
      have hfy : fpVal (compute_fire_point y) = fpVal (fire_point_bits y) :=
        congrArg fpVal (compute_fire_point_eq_spec y (hval y hmemy))
      simp only [Bool.not_eq_true'] at hxy
      rw [agentLt_eq_qkLt, qkLt_false_iff] at hxy
      rcases hxy with ⟨h₁, h₂⟩
      rcases lt_trichotomy (fpVal (compute_fire_point x)) (fpVal (compute_fire_point y))
        with hf | hf | hf
      · exact Or.inl (hfx ▸ hfy ▸ hf)
      · rcases h₂ with h₂ | h₂
        · exact absurd hf.symm h₂
        · exact Or.inr ⟨hfx ▸ hfy ▸ hf, h₂⟩
      · exact absurd hf h₁
  · decide

/-- Witness for C6's universal part at the three-agent example. -/
theorem get_firing_agents_order_witness :
    (get_firing_agents [agZulu, agAlpha, agBravo] 1).Perm
        ([agZulu, agAlpha, agBravo].filter (fun a => should_run a 1)) ∧
      (get_firing_agents [agZulu, agAlpha, agBravo] 1).Pairwise (fun x y =>
        fpVal (fire_point_bits x) < fpVal (fire_point_bits y) ∨
          (fpVal (fire_point_bits x) = fpVal (fire_point_bits y) ∧
            lexLt y.name x.name = false)) :=
  get_firing_agents_order.1 [agZulu, agAlpha, agBravo] 1 (by decide)

/-- Counterexample to C6 as stated: at the loader-valid schedules of
`agCexA` (fire point `1/3`, name `"a"`) and `agCexB` (fire point
`33333333333333331 / 10^17 < 1/3`, name `"b"`), both firing at tick
`33333333333333331`, the two distinct rational fire points round to the
same binary64 value, so the program name-tie-breaks and runs `"a"` first —
the opposite of ascending exact-rational fire-point order. -/
theorem get_firing_agents_order_counterexample :
    ((get_firing_agents [agCexA, agCexB] 33333333333333331).map (fun a => a.name) =
        [[97], [98]]) ∧
      fire_point_spec agCexB < fire_point_spec agCexA ∧
      ¬ (get_firing_agents [agCexA, agCexB] 33333333333333331).Pairwise (fun x y =>
          fire_point_spec x < fire_point_spec y ∨
            (fire_point_spec x = fire_point_spec y ∧ lexLt y.name x.name = false)) := by
  have hA : fire_point_spec agCexA = 1 / 3 := by
    show ((1 : Int) : ℚ) / ((3 : Int) : ℚ) = 1 / 3
    norm_num
  have hB : fire_point_spec agCexB = 33333333333333331 / 100000000000000000 := by
    show ((33333333333333331 : Int) : ℚ) / ((100000000000000000 : Int) : ℚ)
        = 33333333333333331 / 100000000000000000
    norm_num
  have hlist : get_firing_agents [agCexA, agCexB] 33333333333333331 = [agCexA, agCexB] := by
    rfl
  refine ⟨by rw [hlist]; rfl, by rw [hA, hB]; norm_num, ?_⟩
  intro hpw
  rw [hlist] at hpw
  have hr := (List.pairwise_cons.mp hpw).1 agCexB (by simp)
  rcases hr with hlt | ⟨heq, _⟩
  · rw [hA, hB] at hlt
    norm_num at hlt
  · rw [hA, hB] at heq
    norm_num at heq

theorem mem_scanLoop {since : Option Nat} {limit : Nat} :
    ∀ {l : List OutboxEntry} {c : Nat} {e : OutboxEntry},
      e ∈ scanLoop since limit l c → e ∈ l := by
  intro l
  induction l with
  | nil => intro c e h; simp [scanLoop] at h
  | cons f rest ih =>
    intro c e h
    simp only [scanLoop] at h
    split at h
    · simp at h
    · rcases List.mem_cons.mp h with rfl | h'
      · exact List.mem_cons_self _ _
      · split at h'
        · simp at h'
        · exact List.mem_cons_of_mem _ (ih h')

theorem mem_scan_outbox_files {L : List OutboxEntry} {since : Option Nat}
    {limit : Nat} {e : OutboxEntry} (h : e ∈ scan_outbox_files L since limit) :
    e ∈ L :=
  (sortDescBy_perm ltName L).subset (mem_scanLoop h)

theorem mem_foldr_hMerge (lt : α → α → Bool) :
    ∀ (xs : List (List α)) (e : α), e ∈ xs.foldr (hMerge lt) [] → ∃ x ∈ xs, e ∈ x := by
  intro xs
  induction xs with
  | nil => intro e h; simp at h
  | cons x rest ih =>
    intro e h
    have h' := (hMerge_perm lt x (rest.foldr (hMerge lt) [])).subset h
    rcases List.mem_append.mp h' with h₁ | h₂
    · exact ⟨x, List.mem_cons_self _ _, h₁⟩
    · rcases ih e h₂ with ⟨y, hy, hey⟩
      exact ⟨y, List.mem_cons_of_mem _ hy, hey⟩

theorem mem_read_multi {ls : List (List OutboxEntry)} {limit : Nat}
    {since : Option Nat} {e : OutboxEntry}
    (h : e ∈ read_multi_agent_outbox_entries ls limit since) :
    ∃ L ∈ ls, e ∈ L := by
  by_cases h0 : limit = 0
  · rw [read_multi_agent_outbox_entries, if_pos h0] at h
    simp at h
  · rw [read_multi_agent_outbox_entries, if_neg h0] at h
    replace h : e ∈ sortDescBy ltTC
        (((ls.map (fun L => scan_outbox_files L since limit)).foldr
          (hMerge ltTN) []).take limit) := h
    have h1 := (sortDescBy_perm ltTC _).subset h
    have h2 := (List.take_sublist _ _).subset h1
    rcases mem_foldr_hMerge ltTN _ e h2 with ⟨S, hS, heS⟩
    rcases List.mem_map.mp hS with ⟨L, hL, rfl⟩
    exact ⟨L, hL, mem_scan_outbox_files heS⟩

theorem mem_agentEntries :
    ∀ (fs : List (List Nat × List OutboxEntry)) (n : List Nat) (e : OutboxEntry),
      e ∈ agentEntries fs n → ∃ p ∈ fs, p.1 = n ∧ e ∈ p.2 := by
  intro fs
  induction fs with
  | nil => intro n e h; simp [agentEntries] at h
  | cons p rest ih =>
    intro n e h
    rcases p with ⟨k, l⟩
    simp only [agentEntries] at h
    split at h
    · exact ⟨(k, l), List.mem_cons_self _ _, by assumption, h⟩
    · rcases ih n e h with ⟨q, hq, hqn, heq⟩
      exact ⟨q, List.mem_cons_of_mem _ hq, hqn, heq⟩

/-- C10: the reader's own outbox never appears in the collected entries —
its name is excluded under the wildcard and filtered from explicit lists
(`fs` well-formed: each directory holds its own agent's entries). -/
theorem collect_readable_excludes_self
    (fs : List (List Nat × List OutboxEntry)) (agent_name : List Nat)
    (read_outboxes : List (List Nat)) (limit : Nat) (since : Option Nat)
    (hWF : ∀ p ∈ fs, ∀ e ∈ p.2, e.agent = p.1) :
    (collect_readable_outboxes fs agent_name read_outboxes limit since).all
      (fun e => decide (e.agent ≠ agent_name)) = true := by
  rw [List.all_eq_true]
  intro e he
  rw [decide_eq_true_iff]
  replace he : e ∈ read_multi_agent_outbox_entries
      ((if read_outboxes = [sStar] then
          (fs.map Prod.fst).filter
            (fun n => decide (n ≠ agent_name) && decide (n ≠ sAgentTemplate))
        else read_outboxes.filter (fun n => decide (n ≠ agent_name))).map
        (fun n => agentEntries fs n)) limit since := he
  rcases mem_read_multi he with ⟨L, hL, heL⟩
  rcases List.mem_map.mp hL with ⟨n, hn, rfl⟩
  rcases mem_agentEntries fs n e heL with ⟨p, hp, hpn, hep⟩
  have hagent : e.agent = n := (hWF p hp e hep).trans hpn
  have hne : n ≠ agent_name := by
    by_cases hw : read_outboxes = [sStar]
    · rw [if_pos hw] at hn
      have hband := (List.mem_filter.mp hn).2
      rw [Bool.and_eq_true] at hband
      exact of_decide_eq_true hband.1
    · rw [if_neg hw] at hn
      exact of_decide_eq_true (List.mem_filter.mp hn).2
  rw [hagent]
  exact hne

/-- Witness for C10: a wildcard read over a store that does contain the
reader's own entries. -/
theorem collect_readable_excludes_self_witness :
    (collect_readable_outboxes fsEx rdrName [sStar] 30 none).all
      (fun e => decide (e.agent ≠ rdrName)) = true :=
  collect_readable_excludes_self fsEx rdrName [sStar] 30 none (by decide)

end LeMMing
